import Mathlib

set_option maxRecDepth 8000

namespace Flashrom

/-!
Shallow embedding of the erase-and-write planner and executor of the flashrom
fork under verification.  The definitions mirror, function by function, the C
code in `action_descriptor.c` and `flashrom.c`:

* `fill_sorted_erasers` — eraser selection (`action_descriptor.c:95`);
* `fineScan`            — the fine-grained diff loop of
  `fill_action_descriptor` (`action_descriptor.c:434`);
* `foldLevelStep` / `foldUp` / `clear_all_nested` / `pruneLevel` /
  `pruneDown` / `fold_range_maps` — the upward fold and downward prune
  (`action_descriptor.c:192-307`);
* `emitLevel` / `fill_action_descriptor` — the processing-unit emitter
  (`action_descriptor.c:459-511`);
* `need_erase`, `get_next_write`, `erase_and_write_block_helper`,
  `walk_units`, `verify_range` — the executor (`flashrom.c`).

Byte buffers are modelled as total functions `Nat → Nat` (the C code indexes
`uint8_t` arrays; values are the byte values), block maps as `List BMap`,
machine integers as `Nat` with explicit masking where the C code relies on
fixed-width bit operations.
-/

/-- One entry of a block map: the C bit-field struct `b_map`
(`need_change:1`, `need_erase:1`) of `action_descriptor.c`. -/
structure BMap where
  need_change : Bool
  need_erase : Bool
deriving DecidableEq, Repr, Inhabited

/-- The all-zero `b_map` entry (the maps are `memset` to 0 at allocation). -/
def BMap.clear : BMap := ⟨false, false⟩

/-- The C struct `range_map`: a block size, the fold threshold `limit`, and
one `b_map` per block of that size. -/
structure RangeMap where
  block_size : Nat
  limit : Nat
  block_map : List BMap
deriving DecidableEq, Repr, Inhabited

/-- The C struct `eraseblock`: a region of `count` blocks of `size` bytes. -/
structure EraseBlock where
  size : Nat
  count : Nat
deriving DecidableEq, Repr, Inhabited

/-- The C struct `block_eraser`: whether a `block_erase` function is present,
and the `eraseblocks` region array. -/
structure BlockEraser where
  block_erase : Bool
  eraseblocks : List EraseBlock
deriving DecidableEq, Repr, Inhabited

/-- The C struct `processing_unit` filled by `fill_action_descriptor`. -/
structure ProcessingUnit where
  offset : Nat
  block_size : Nat
  num_blocks : Nat
  block_eraser_index : Nat
  block_region_index : Nat
deriving DecidableEq, Repr, Inhabited

/-- `chip->block_erasers[p.1].eraseblocks[p.2].size`: the block size selected
by the sorted-eraser entry `p = (eraser_index, region_index)`. -/
def eraserBlockSize (chipErasers : List BlockEraser) (p : Nat × Nat) : Nat :=
  ((chipErasers.getD p.1 default).eraseblocks.getD p.2 default).size

/-- The region scan of `fill_sorted_erasers` (`action_descriptor.c:116-121`):
index of the first region with `size * count >= erase_size`, if any. -/
def findQualifyingRegion (ebs : List EraseBlock) (eraseSize : Nat) : Option Nat :=
  match ebs with
  | [] => none
  | eb :: rest =>
    if eraseSize ≤ eb.size * eb.count then some 0
    else (findQualifyingRegion rest eraseSize).map (· + 1)

/-- The per-eraser filter of `fill_sorted_erasers`: skip slots without a
`block_erase` function, then find the first qualifying region. -/
def selectEraser (er : BlockEraser) (eraseSize : Nat) : Option Nat :=
  if er.block_erase then findQualifyingRegion er.eraseblocks eraseSize else none

/-- The insertion loop of `fill_sorted_erasers` (`action_descriptor.c:137-162`):
walk the sorted array; past entries with smaller sizes; on an equal size the
new entry overwrites the slot (`j--` then the unconditional store); on a
larger size the tail is shifted (`memmove`) and the new entry stored. -/
def insertEraser (chipErasers : List BlockEraser) (acc : List (Nat × Nat))
    (p : Nat × Nat) : List (Nat × Nat) :=
  match acc with
  | [] => [p]
  | q :: rest =>
    if eraserBlockSize chipErasers q < eraserBlockSize chipErasers p then
      q :: insertEraser chipErasers rest p
    else if eraserBlockSize chipErasers q = eraserBlockSize chipErasers p then
      p :: rest
    else
      p :: q :: rest

/-- The outer loop of `fill_sorted_erasers` over all eraser slots `k`. -/
def fillSortedGo (chipErasers : List BlockEraser) (eraseSize : Nat) :
    Nat → List BlockEraser → List (Nat × Nat) → List (Nat × Nat)
  | _, [], acc => acc
  | k, er :: rest, acc =>
    fillSortedGo chipErasers eraseSize (k + 1) rest
      (match selectEraser er eraseSize with
       | none => acc
       | some n => insertEraser chipErasers acc (k, n))

/-- `fill_sorted_erasers` (`action_descriptor.c:95-172`): the sorted,
de-duplicated list of `(eraser_index, region_index)` pairs for the erasers
able to erase up to offset `eraseSize`. -/
def fill_sorted_erasers (chipErasers : List BlockEraser) (eraseSize : Nat) :
    List (Nat × Nat) :=
  fillSortedGo chipErasers eraseSize 0 chipErasers []

/-- Block `j` of level `lvl` of a range-map array (out-of-range reads give the
all-zero entry, matching the zero-initialized C maps). -/
def blockAt (ms : List RangeMap) (lvl j : Nat) : BMap :=
  (ms.getD lvl default).block_map.getD j BMap.clear

/-- The level-`lvl` range map (out-of-range gives a degenerate empty map). -/
def levelAt (ms : List RangeMap) (lvl : Nat) : RangeMap := ms.getD lvl default

/-- Block size of level `lvl`. -/
def bsAt (ms : List RangeMap) (lvl : Nat) : Nat := (levelAt ms lvl).block_size

/-- Replace level `lvl` of the array by `f` of its old value. -/
def updateLevel (ms : List RangeMap) (lvl : Nat) (f : RangeMap → RangeMap) :
    List RangeMap :=
  ms.set lvl (f (ms.getD lvl default))

/-- Store block entry `j` of one range map. -/
def setBlk (rm : RangeMap) (j : Nat) (b : BMap) : RangeMap :=
  { rm with block_map := rm.block_map.set j b }

/-- The map-initialization loop of `fill_action_descriptor`
(`action_descriptor.c:374-425`): one zeroed map per sorted eraser; `limit` is
`((larger_block_size / block_size) * 7) / 10` for every level but the last,
which keeps the `memset` zero. -/
def initMaps (chipErasers : List BlockEraser) (sorted : List (Nat × Nat))
    (chipSize : Nat) : List RangeMap :=
  (List.range sorted.length).map (fun i =>
    let bs := eraserBlockSize chipErasers (sorted.getD i (0, 0))
    { block_size := bs
      limit :=
        if i + 1 < sorted.length then
          (eraserBlockSize chipErasers (sorted.getD (i + 1) (0, 0)) / bs) * 7 / 10
        else 0
      block_map := List.replicate (chipSize / bs) BMap.clear })

/-- The C skip `i += block_size; i &= ~(block_size - 1);`
(`action_descriptor.c:451-452`) on a 64-bit `size_t`:
`~(bs - 1)` is `2 ^ 64 - bs`. -/
def alignSkip (i bs : Nat) : Nat := Nat.land (i + bs) (2 ^ 64 - bs)

/-- The fine-grained diff loop of `fill_action_descriptor`
(`action_descriptor.c:434-454`), filling the smallest-block-size map.  `fuel`
bounds the iteration count (the C loop runs `i` from 0 below `chipSize`,
advancing by at least one per iteration, so `chipSize` fuel is enough); after
a block has both flags set, the loop variable is advanced by the skip above
and then incremented once more by the `for` update. -/
def fineScan (oldc newc : Nat → Nat) (ev bs chipSize : Nat) :
    Nat → Nat → List BMap → List BMap
  | 0, _, bm => bm
  | fuel + 1, i, bm =>
    if i < chipSize then
      if oldc i = newc i then
        fineScan oldc newc ev bs chipSize fuel (i + 1) bm
      else
        let bi := i / bs
        let b0 := bm.getD bi BMap.clear
        let b1 := if oldc i ≠ ev then { b0 with need_erase := true } else b0
        let b2 := if newc i ≠ ev then { b1 with need_change := true } else b1
        let bm2 := bm.set bi b2
        let i2 := if b2.need_erase && b2.need_change then alignSkip i bs + 1 else i + 1
        fineScan oldc newc ev bs chipSize fuel i2 bm2
    else bm

/-- Count of `need_erase` marks among blocks `[lo, lo + n)` of a block map. -/
def countErase (bm : List BMap) (lo n : Nat) : Nat :=
  ((List.range' lo n).filter (fun j => (bm.getD j BMap.clear).need_erase)).length

/-- Count of `need_change` marks among blocks `[lo, lo + n)` of a block map. -/
def countChange (bm : List BMap) (lo n : Nat) : Nat :=
  ((List.range' lo n).filter (fun j => (bm.getD j BMap.clear).need_change)).length

/-- The body of the upward-pass block loop of `fold_range_maps`
(`action_descriptor.c:251-286`) for one block `bi` of level `i`, with
`mult` the `block_mult` of the level. -/
def foldBlockStep (i mult : Nat) (ms2 : List RangeMap) (bi : Nat) :
    List RangeMap :=
  if (levelAt ms2 (i - 1)).limit <
      countErase (levelAt ms2 (i - 1)).block_map (bi * mult) mult then
    updateLevel ms2 i (fun rm => setBlk rm bi
      ⟨decide (0 < countChange (levelAt ms2 (i - 1)).block_map (bi * mult) mult),
        true⟩)
  else ms2

/-- One level of the upward pass of `fold_range_maps`
(`action_descriptor.c:243-287`): for every block of level `i`, count the
erase- and change-marked children in level `i - 1`; when the erase count
exceeds the child level's `limit`, mark the block for erase and set
`need_change` to whether any child was change-marked. -/
def foldLevelStep (chipSize : Nat) (ms : List RangeMap) (i : Nat) :
    List RangeMap :=
  (List.range (chipSize / bsAt ms i)).foldl
    (foldBlockStep i (bsAt ms i / bsAt ms (i - 1))) ms

/-- The upward pass of `fold_range_maps`: levels `1` to `num_maps - 1`, bottom
to top. -/
def foldUp (chipSize : Nat) (ms : List RangeMap) : List RangeMap :=
  (List.range' 1 (ms.length - 1)).foldl (foldLevelStep chipSize) ms

/-- `clear_all_nested` (`action_descriptor.c:192-212`): given a level `i ≥ 1`
block, clear both flags of every level `i - 1` block in its address range and
recurse below.  The first argument is the level of the marked block. -/
def clear_all_nested : Nat → List RangeMap → Nat → List RangeMap
  | 0, ms, _ => ms
  | i + 1, ms, blockIndex =>
    let upperBs := bsAt ms (i + 1)
    let thisBs := bsAt ms i
    let rangeStart := upperBs * blockIndex
    let rangeEnd := rangeStart + upperBs
    (List.range' (rangeStart / thisBs) (rangeEnd / thisBs - rangeStart / thisBs)).foldl
      (fun ms2 j =>
        let ms3 := updateLevel ms2 i (fun rm => setBlk rm j BMap.clear)
        if 0 < i then clear_all_nested i ms3 j else ms3)
      ms
termination_by i _ _ => i

/-- The body of the downward-pass block loop (`action_descriptor.c:298-305`)
for one block `bi` of level `i`. -/
def pruneBlockStep (i : Nat) (ms2 : List RangeMap) (bi : Nat) : List RangeMap :=
  if (blockAt ms2 i bi).need_erase then clear_all_nested i ms2 bi else ms2

/-- One level of the downward pass of `fold_range_maps`
(`action_descriptor.c:295-306`): clear everything nested under each
erase-marked block of level `i`. -/
def pruneLevel (chipSize : Nat) (ms : List RangeMap) (i : Nat) :
    List RangeMap :=
  (List.range (chipSize / bsAt ms i)).foldl (pruneBlockStep i) ms

/-- The downward pass, from level `i` down to level 1. -/
def pruneFrom (chipSize : Nat) : Nat → List RangeMap → List RangeMap
  | 0, ms => ms
  | i + 1, ms => pruneFrom chipSize i (pruneLevel chipSize ms (i + 1))

/-- The downward pass of `fold_range_maps`, levels `num_maps - 1` down to 1. -/
def pruneDown (chipSize : Nat) (ms : List RangeMap) : List RangeMap :=
  pruneFrom chipSize (ms.length - 1) ms

/-- `fold_range_maps` (`action_descriptor.c:226-307`): upward fold followed by
downward prune. -/
def fold_range_maps (chipSize : Nat) (ms : List RangeMap) : List RangeMap :=
  pruneDown chipSize (foldUp chipSize ms)

/-- A processing unit as stored by `fill_action_descriptor`
(`action_descriptor.c:480-507`): `j` is the index of the first unmarked block
after a run of `consec` marked ones. -/
def emitRun (bs erIdx regIdx j consec : Nat) : ProcessingUnit :=
  { offset := (j - consec) * bs
    block_size := bs
    num_blocks := consec
    block_eraser_index := erIdx
    block_region_index := regIdx }

/-- The body of the emission loop for one block index `j`
(`action_descriptor.c:467-489`): the accumulator is the emitted units so far
and the `consecutive_blocks` counter. -/
def emitStep (rm : RangeMap) (erIdx regIdx : Nat)
    (acc : List ProcessingUnit × Nat) (j : Nat) : List ProcessingUnit × Nat :=
  let b := rm.block_map.getD j BMap.clear
  if b.need_erase || b.need_change then (acc.1, acc.2 + 1)
  else if acc.2 = 0 then acc
  else (acc.1 ++ [emitRun rm.block_size erIdx regIdx j acc.2], 0)

/-- The per-level emission loop of `fill_action_descriptor`
(`action_descriptor.c:467-507`): accumulate consecutive marked blocks, emit a
unit at the first unmarked block and once more at the end of the map. -/
def emitLevel (chipSize : Nat) (rm : RangeMap) (erIdx regIdx : Nat) :
    List ProcessingUnit :=
  let mapSize := chipSize / rm.block_size
  let fin := (List.range mapSize).foldl (emitStep rm erIdx regIdx) ([], 0)
  if fin.2 = 0 then fin.1
  else fin.1 ++ [emitRun rm.block_size erIdx regIdx mapSize fin.2]

/-- The outer emission loop body of `fill_action_descriptor`
(`action_descriptor.c:462-508`): append the units of level `i`. -/
def emitAllStep (chipSize : Nat) (maps2 : List RangeMap)
    (sorted : List (Nat × Nat)) (pus : List ProcessingUnit) (i : Nat) :
    List ProcessingUnit :=
  pus ++ emitLevel chipSize (levelAt maps2 i)
    (sorted.getD i (0, 0)).1 (sorted.getD i (0, 0)).2

/-- `fill_action_descriptor` (`action_descriptor.c:346-511`): initialize the
range maps, fill the finest map from the image difference, fold, and emit the
processing units level by level.  The C sentinel `num_blocks = 0` terminating
the array corresponds to the end of the returned list. -/
def fill_action_descriptor (chipErasers : List BlockEraser)
    (sorted : List (Nat × Nat)) (chipSize ev : Nat) (oldc newc : Nat → Nat) :
    List ProcessingUnit :=
  let maps0 := initMaps chipErasers sorted chipSize
  let bs0 := bsAt maps0 0
  let bm0 := fineScan oldc newc ev bs0 chipSize chipSize 0 (levelAt maps0 0).block_map
  let maps1 := updateLevel maps0 0 (fun rm => { rm with block_map := bm0 })
  let maps2 := fold_range_maps chipSize maps1
  (List.range sorted.length).foldl (emitAllStep chipSize maps2 sorted) []

/-- The highest-modified-offset scan of `prepare_action_descriptor`
(`action_descriptor.c:533-535`): last differing index plus one, 0 if none. -/
def highestModifiedOffset (chipSize : Nat) (oldc newc : Nat → Nat) : Nat :=
  (List.range chipSize).foldl
    (fun acc i => if newc i ≠ oldc i then i + 1 else acc) 0

/-- `prepare_action_descriptor` (`action_descriptor.c:513-567`) without the
memory management: eraser selection followed by `fill_action_descriptor`. -/
def prepare_action_descriptor (chipErasers : List BlockEraser)
    (chipSize ev : Nat) (oldc newc : Nat → Nat) : List ProcessingUnit :=
  fill_action_descriptor chipErasers
    (fill_sorted_erasers chipErasers (highestModifiedOffset chipSize oldc newc))
    chipSize ev oldc newc

/-! ## Executor (`flashrom.c`) -/

/-- The C enum `write_granularity` (`flash.h`). -/
inductive WriteGranularity
  | write_gran_1bit
  | write_gran_1byte
  | write_gran_128bytes
  | write_gran_256bytes
  | write_gran_264bytes
  | write_gran_512bytes
  | write_gran_528bytes
  | write_gran_1024bytes
  | write_gran_1056bytes
  | write_gran_1byte_implicit_erase
deriving DecidableEq, Repr, Inhabited

/-- The stride used by `get_next_write` (`flashrom.c:1116-1141`) for each
granularity. -/
def granStride : WriteGranularity → Nat
  | .write_gran_1bit => 1
  | .write_gran_1byte => 1
  | .write_gran_128bytes => 128
  | .write_gran_256bytes => 256
  | .write_gran_264bytes => 264
  | .write_gran_512bytes => 512
  | .write_gran_528bytes => 528
  | .write_gran_1024bytes => 1024
  | .write_gran_1056bytes => 1056
  | .write_gran_1byte_implicit_erase => 1

/-- Modelled from the spec: `flash_erase_value` is declared in `flash.h` but
defined outside the sources at hand.  Per the spec's data model (the
`ERASE_TO_ZERO` feature bit) and glossary, the erased value is 0 for
erase-to-zero chips and 0xff otherwise. -/
def flash_erase_value (eraseToZero : Bool) : Nat :=
  if eraseToZero then 0x00 else 0xff

/-- `need_erase_gran_bytes` (`flashrom.c:1001-1016`): some page-aligned chunk
of `gran` bytes differs and holds a byte not in the erased state. -/
def need_erase_gran_bytes (hav want : Nat → Nat) (len gran ev : Nat) : Bool :=
  (List.range (len / gran)).any (fun j =>
    let limit := min gran (len - j * gran)
    if (List.range limit).all (fun i => hav (j * gran + i) == want (j * gran + i))
    then false
    else (List.range limit).any (fun i => hav (j * gran + i) != ev))

/-- `need_erase` (`flashrom.c:1032-1083`): whether the buffer `hav` must be
erased to reach the content `want`, for the given write granularity and
erased value. -/
def need_erase (hav want : Nat → Nat) (len : Nat) (gran : WriteGranularity)
    (ev : Nat) : Bool :=
  match gran with
  | .write_gran_1bit =>
    (List.range len).any (fun i => Nat.land (hav i) (want i) != want i)
  | .write_gran_1byte =>
    (List.range len).any (fun i => hav i != want i && hav i != ev)
  | .write_gran_128bytes => need_erase_gran_bytes hav want len 128 ev
  | .write_gran_256bytes => need_erase_gran_bytes hav want len 256 ev
  | .write_gran_264bytes => need_erase_gran_bytes hav want len 264 ev
  | .write_gran_512bytes => need_erase_gran_bytes hav want len 512 ev
  | .write_gran_528bytes => need_erase_gran_bytes hav want len 528 ev
  | .write_gran_1024bytes => need_erase_gran_bytes hav want len 1024 ev
  | .write_gran_1056bytes => need_erase_gran_bytes hav want len 1056 ev
  | .write_gran_1byte_implicit_erase => false

/-- Whether the stride-`j` chunk of `hav`/`want` differs (the `memcmp` of
`get_next_write`, `flashrom.c:1153`). -/
def chunkDiffers (hav want : Nat → Nat) (len stride j : Nat) : Bool :=
  (List.range (min stride (len - j * stride))).any
    (fun b => hav (j * stride + b) != want (j * stride + b))

/-- `get_next_write` (`flashrom.c:1108-1172`): returns
`(first_len, first_start + rel_start)` — the length of the first contiguous
differing run of stride-aligned chunks and the updated start offset;
`first_len = 0` when no write is needed. -/
def get_next_write (hav want : Nat → Nat) (len first_start : Nat)
    (gran : WriteGranularity) : Nat × Nat :=
  let stride := granStride gran
  let n := len / stride
  match (List.range n).find? (fun j => chunkDiffers hav want len stride j) with
  | none => (0, first_start)
  | some d =>
    let i :=
      match (List.range' (d + 1) (n - (d + 1))).find?
          (fun j => !chunkDiffers hav want len stride j) with
      | none => n
      | some e => e
    (min (i * stride - d * stride) len, first_start + d * stride)

/-- Chip-level operations issued by `erase_and_write_block_helper`, in order.
`checkErasedOp` records the `check_erased_range` read-back after an erase,
`verifyOp` the `verify_range` read-back after a write; their `Bool` is the
comparison outcome. -/
inductive FlashOp
  | eraseOp (start len : Nat)
  | checkErasedOp (start len : Nat) (ok : Bool)
  | writeOp (start len : Nat)
  | verifyOp (start len : Nat) (ok : Bool)
deriving DecidableEq, Repr

/-- Overwrite `[start, start + len)` of a buffer with the values of `g`. -/
def updRange (f : Nat → Nat) (start len : Nat) (g : Nat → Nat) : Nat → Nat :=
  fun a => if start ≤ a ∧ a < start + len then g a else f a

/-- The master driven by the executor: the effect and return code of its
erase and write operations, the paranoid flag of the programmer table, the
chip's write granularity and erased value. -/
structure ExecMaster where
  paranoid : Bool
  applyErase : (Nat → Nat) → Nat → Nat → (Nat → Nat)
  applyWrite : (Nat → Nat) → (Nat → Nat) → Nat → Nat → (Nat → Nat)
  eraseRet : Nat → Nat → Int
  writeRet : Nat → Nat → Int
  gran : WriteGranularity
  erasedValue : Nat

/-- The ideal master of the planner contract: erase sets the block to the
erased value, write copies the requested bytes, nothing fails. -/
def idealMaster (ev : Nat) : ExecMaster :=
  { paranoid := false
    applyErase := fun chip s l => updRange chip s l (fun _ => ev)
    applyWrite := fun chip data s l => updRange chip s l data
    eraseRet := fun _ _ => 0
    writeRet := fun _ _ => 0
    gran := .write_gran_1byte
    erasedValue := ev }

/-- Result of one `erase_and_write_block_helper` call: return code, flash
contents, the (possibly `memset`) `curcontents` buffer, and the operation
trace. -/
structure HelperResult where
  ret : Int
  chip : Nat → Nat
  cur : Nat → Nat
  trace : List FlashOp

/-- The write loop of `erase_and_write_block_helper` (`flashrom.c:1919-1950`):
repeatedly find the next differing run, write it, and — when paranoid and the
block was not just erased — read it back and compare, failing on mismatch.
One fuel unit is one loop iteration; `len + 1` units are enough since
`starthere` grows by at least one per iteration. -/
def writeLoop (m : ExecMaster) (newc : Nat → Nat) (start len : Nat)
    (block_was_erased : Bool) :
    Nat → Nat → (Nat → Nat) → (Nat → Nat) → HelperResult
  | 0, _, chip, cur => ⟨0, chip, cur, []⟩
  | fuel + 1, starthere, chip, cur =>
    let r := get_next_write (fun k => cur (start + starthere + k))
      (fun k => newc (start + starthere + k)) (len - starthere) starthere m.gran
    if r.1 = 0 then ⟨0, chip, cur, []⟩
    else
      let wret := m.writeRet (start + r.2) r.1
      let chip2 := m.applyWrite chip newc (start + r.2) r.1
      if wret ≠ 0 then ⟨wret, chip2, cur, [FlashOp.writeOp (start + r.2) r.1]⟩
      else if m.paranoid && !block_was_erased then
        let ok := (List.range r.1).all
          (fun k => chip2 (start + r.2 + k) == newc (start + r.2 + k))
        if ok then
          let rest := writeLoop m newc start len block_was_erased fuel (r.2 + r.1) chip2 cur
          ⟨rest.ret, rest.chip, rest.cur,
            FlashOp.writeOp (start + r.2) r.1 :: FlashOp.verifyOp (start + r.2) r.1 ok ::
              rest.trace⟩
        else
          ⟨-1, chip2, cur,
            [FlashOp.writeOp (start + r.2) r.1, FlashOp.verifyOp (start + r.2) r.1 ok]⟩
      else
        let rest := writeLoop m newc start len block_was_erased fuel (r.2 + r.1) chip2 cur
        ⟨rest.ret, rest.chip, rest.cur, FlashOp.writeOp (start + r.2) r.1 :: rest.trace⟩

/-- `erase_and_write_block_helper` (`flashrom.c:1871-1954`) on the block
`[start, start + len)`.  Note the erase decision calls `need_erase` with the
literal `0xff` of the C source, while the post-erase `memset` and the
`check_erased_range` read-back use the chip's erased value
(`ERASED_VALUE(flash)`), exactly as in the code. -/
def erase_and_write_block_helper (m : ExecMaster) (start len : Nat)
    (curcontents newcontents chip : Nat → Nat) : HelperResult :=
  if need_erase (fun k => curcontents (start + k)) (fun k => newcontents (start + k))
      len m.gran 0xff then
    let eret := m.eraseRet start len
    let chip2 := m.applyErase chip start len
    let tr := [FlashOp.eraseOp start len]
    if eret ≠ 0 then ⟨eret, chip2, curcontents, tr⟩
    else if m.paranoid then
      let ok := (List.range len).all (fun k => chip2 (start + k) == m.erasedValue)
      let tr2 := tr ++ [FlashOp.checkErasedOp start len ok]
      if ok then
        let rest := writeLoop m newcontents start len true (len + 1) 0 chip2
          (updRange curcontents start len (fun _ => m.erasedValue))
        ⟨rest.ret, rest.chip, rest.cur, tr2 ++ rest.trace⟩
      else ⟨-1, chip2, curcontents, tr2⟩
    else
      let rest := writeLoop m newcontents start len true (len + 1) 0 chip2
        (updRange curcontents start len (fun _ => m.erasedValue))
      ⟨rest.ret, rest.chip, rest.cur, tr ++ rest.trace⟩
  else
    writeLoop m newcontents start len false (len + 1) 0 chip curcontents

/-- `walk_eraseregions` (`flashrom.c:1970-2016`): process every block of every
processing unit through `erase_and_write_block_helper`, threading the flash
contents and the shared `oldcontents` buffer. -/
def walk_units (m : ExecMaster) (newc : Nat → Nat) (chip0 oldc : Nat → Nat)
    (pus : List ProcessingUnit) : (Nat → Nat) × (Nat → Nat) :=
  pus.foldl
    (fun st pu =>
      (List.range pu.num_blocks).foldl
        (fun st2 b =>
          let r := erase_and_write_block_helper m (pu.offset + b * pu.block_size)
            pu.block_size st2.2 newc st2.1
          (r.chip, r.cur))
        st)
    (chip0, oldc)

/-! ## `verify_range` (`flashrom.c:920-998`) -/

/-- The context `verify_range` consults: chip size (KiB) and page size, the
presence of a read function, the data a read returns, the read return code,
the optional `check_access` callback, the global `ignore_error` policy, and
the programmer's paranoid flag. -/
structure VerifyCtx where
  total_size : Nat
  page_size : Nat
  hasRead : Bool
  contents : Nat → Nat
  readRet : Nat → Nat → Int
  checkAccess : Option (Nat → Nat → Int)
  ignoreError : Int → Bool
  paranoid : Bool

/-- `compare_range` (`flashrom.c:876-895`): count of differing bytes, `-1`
result if any. -/
def compare_range_failcount (wantbuf havebuf : Nat → Nat) (len : Nat) : Nat :=
  ((List.range len).filter (fun i => wantbuf i ≠ havebuf i)).length

/-- State of the paranoid chunk loop of `verify_range` on exit: the C `ret`
variable, the final `failcount`, whether the loop was left through the
non-ignored-error `goto out_free`, and the chip reads issued. -/
structure ChunkLoopResult where
  ret : Int
  failcount : Nat
  aborted : Bool
  reads : List (Nat × Nat)

/-- The paranoid chunk loop of `verify_range` (`flashrom.c:945-975`): read and
compare one page-bounded chunk at a time.  A failing read sets `ret` (the
last such code wins) and either continues (ignored error) or aborts; a chunk
vetoed by `check_access` with an ignorable code is skipped; the first chunk
that compares unequal breaks the loop with its failcount. -/
def verifyChunks (ctx : VerifyCtx) (cmpbuf : Nat → Nat) (start len : Nat) :
    Nat → Nat → Int → List (Nat × Nat) → ChunkLoopResult
  | 0, _, ret, reads => ⟨ret, 0, false, reads⟩
  | fuel + 1, i, ret, reads =>
    if i < len then
      let chunksize := min ctx.page_size (len - i)
      let reads2 := reads ++ [(start + i, chunksize)]
      let tmp := ctx.readRet (start + i) chunksize
      if tmp ≠ 0 then
        if ctx.ignoreError tmp then
          verifyChunks ctx cmpbuf start len fuel (i + chunksize) tmp reads2
        else ⟨tmp, 0, true, reads2⟩
      else
        let acSkip :=
          match ctx.checkAccess with
          | none => false
          | some ca =>
            ca (start + i) chunksize ≠ 0 && ctx.ignoreError (ca (start + i) chunksize)
        if acSkip then
          verifyChunks ctx cmpbuf start len fuel (i + chunksize) ret reads2
        else
          let fc := compare_range_failcount (fun k => cmpbuf (i + k))
            (fun k => ctx.contents (start + i + k)) chunksize
          if fc ≠ 0 then ⟨ret, fc, false, reads2⟩
          else verifyChunks ctx cmpbuf start len fuel (i + chunksize) ret reads2
    else ⟨ret, 0, false, reads⟩

/-- `verify_range` (`flashrom.c:920-998`): compare `cmpbuf` against the chip
content at `[start, start + len)`.  Returns the result code and the list of
`(start, len)` chip reads issued.  A zero length fails immediately; so does a
range beyond the chip, both before any read. -/
def verify_range (ctx : VerifyCtx) (cmpbuf : Nat → Nat) (start len : Nat) :
    Int × List (Nat × Nat) :=
  if len = 0 then (-1, [])
  else if !ctx.hasRead then (-1, [])
  else if ctx.total_size * 1024 < start + len then (-1, [])
  else if ctx.paranoid then
    let r := verifyChunks ctx cmpbuf start len (len + 1) 0 0 []
    if r.aborted then (r.ret, r.reads)
    else if r.failcount ≠ 0 then (-1, r.reads)
    else (r.ret, r.reads)
  else
    let tmp := ctx.readRet start len
    if tmp ≠ 0 ∧ ¬ ctx.ignoreError tmp then (tmp, [(start, len)])
    else
      let fc := compare_range_failcount cmpbuf (fun k => ctx.contents (start + k)) len
      if fc ≠ 0 then (-1, [(start, len)])
      else (0, [(start, len)])

/-! ## Predicates and concrete inputs used by the claims -/

/-- Whether byte address `a` lies in the range of some emitted processing
unit (`offset ≤ a < offset + num_blocks * block_size`). -/
def coversAddr (pus : List ProcessingUnit) (a : Nat) : Bool :=
  pus.any (fun pu =>
    pu.offset ≤ a && a < pu.offset + pu.num_blocks * pu.block_size)

/-- Whether a block at level `lvl` carries any mark. -/
def markedBlock (ms : List RangeMap) (lvl j : Nat) : Bool :=
  (blockAt ms lvl j).need_erase || (blockAt ms lvl j).need_change

/-- The formalization of the spec sentence behind C9: every `writeOp` of a
trace is immediately followed by a `verifyOp` of the same range. -/
def writesVerified : List FlashOp → Bool
  | [] => true
  | FlashOp.writeOp s l :: rest =>
    match rest with
    | FlashOp.verifyOp s2 l2 _ :: rest2 => s == s2 && l == l2 && writesVerified rest2
    | _ => false
  | _ :: rest => writesVerified rest

/-- Well-formedness of a range-map array as built by the planner for a real
chip: positive block sizes, ascending and nested (each dividing the next),
and one map entry per block. -/
def wfMaps (chipSize : Nat) (ms : List RangeMap) : Bool :=
  (List.range ms.length).all (fun l =>
    decide (0 < bsAt ms l) &&
    ((levelAt ms l).block_map.length == chipSize / bsAt ms l) &&
    (!decide (l + 1 < ms.length) ||
      (decide (bsAt ms l < bsAt ms (l + 1)) && decide (bsAt ms l ∣ bsAt ms (l + 1)))))

/-- All maps above the finest level are still all-zero — the state in which
`fill_action_descriptor` hands the array to `fold_range_maps`
("only the lower size bock map has been filled up",
`action_descriptor.c:220-222`). -/
def upperLevelsClear (ms : List RangeMap) : Bool :=
  (List.range' 1 (ms.length - 1)).all (fun l =>
    (levelAt ms l).block_map.all (· == BMap.clear))

/-- Two range-map arrays have the same skeleton: same level count, and
levelwise the same block size and block-map length.  All planner passes
preserve the skeleton; only the marks move. -/
def SkelEq (ms s : List RangeMap) : Prop :=
  s.length = ms.length ∧
  ∀ t, bsAt s t = bsAt ms t ∧
    (levelAt s t).block_map.length = (levelAt ms t).block_map.length

/-- `s2` differs from `s` only by blocks that have been cleared. -/
def OnlyClears (s s2 : List RangeMap) : Prop :=
  ∀ l j, blockAt s2 l j = blockAt s l j ∨ blockAt s2 l j = BMap.clear

/-- A one-eraser chip: blocks of 4 bytes, 2 of them (8-byte chip). -/
def demoErasers : List BlockEraser := [⟨true, [⟨4, 2⟩]⟩]

/-- Before image of the skip-bug input: bytes 0 and 4 are `0x00`, the rest
erased (`0xff`). -/
def demoOld : Nat → Nat := fun i => if i % 4 == 0 then 0x00 else 0xff

/-- After image of the skip-bug input: bytes 0 and 4 become `0x55`. -/
def demoNew : Nat → Nat := fun i => if i % 4 == 0 then 0x55 else 0xff

/-- The processing units the planner emits for the skip-bug input. -/
def demoUnits : List ProcessingUnit :=
  prepare_action_descriptor demoErasers 8 0xff demoOld demoNew

/-- A chip with two erasers of the same block size (4-byte blocks, 4 of
them). -/
def dupErasers : List BlockEraser := [⟨true, [⟨4, 4⟩]⟩, ⟨true, [⟨4, 4⟩]⟩]

/-- A paranoid programmer over the ideal master. -/
def parIdeal : ExecMaster := { idealMaster 0xff with paranoid := true }

/-- Executor demo, before: byte 0 is `0x00`, the rest erased. -/
def c9Old : Nat → Nat := fun i => if i == 0 then 0x00 else 0xff

/-- Executor demo, after: byte 0 becomes `0x55`. -/
def c9New : Nat → Nat := fun i => if i == 0 then 0x55 else 0xff

/-- Executor demo without erase: everything already erased. -/
def c9bOld : Nat → Nat := fun _ => 0xff

/-- Current contents of an erase-to-zero chip sitting in the erased state. -/
def czHave : Nat → Nat := fun _ => 0x00

/-- Desired contents for the erase-to-zero chip: byte 0 becomes `0x55`. -/
def czWant : Nat → Nat := fun i => if i == 0 then 0x55 else 0x00

/-- An erase-to-zero master: the chip's erased value is 0. -/
def masterZero : ExecMaster :=
  { idealMaster (flash_erase_value true) with paranoid := false }

/-- A simple verification context: 1 KiB chip, 256-byte pages, reads always
succeed and return `0xff`. -/
def vctxDemo : VerifyCtx :=
  { total_size := 1
    page_size := 256
    hasRead := true
    contents := fun _ => 0xff
    readRet := fun _ _ => 0
    checkAccess := none
    ignoreError := fun _ => false
    paranoid := false }

/-- A two-level range-map array (4- and 8-byte blocks over a 16-byte chip)
with marks on the finest map, used to witness the prune theorem.  The level-0
`limit` is `((8 / 4) * 7) / 10 = 1`. -/
def c5Maps : List RangeMap :=
  [⟨4, 1, [⟨true, true⟩, ⟨false, true⟩, ⟨true, true⟩, ⟨false, false⟩]⟩,
   ⟨8, 0, [BMap.clear, BMap.clear]⟩]

/-- A two-level range-map array used to witness the fold theorem: 16 children
of 4 bytes under one 64-byte parent, 12 of them erase-marked, over a 64-byte
chip.  The level-0 `limit` is `((64 / 4) * 7) / 10 = 11`. -/
def c4Maps : List RangeMap :=
  [⟨4, 11, (List.range 16).map (fun j => if j < 12 then ⟨true, true⟩ else BMap.clear)⟩,
   ⟨64, 0, [BMap.clear]⟩]

/-! # Theorems -/

/-- Reading another index after `List.set` is unchanged. -/
theorem getD_set_ne {α : Type} (l : List α) {i j : Nat} (x d : α) (h : i ≠ j) :
    (l.set i x).getD j d = l.getD j d := by
  simp [List.getD_eq_getD_get?, List.getElem?_set_ne h]

/-- Reading the written index after an in-range `List.set`. -/
theorem getD_set_self {α : Type} (l : List α) {j : Nat} (x d : α)
    (h : j < l.length) : (l.set j x).getD j d = x := by
  simp [List.getD_eq_getD_get?, List.getElem?_set_eq_of_lt x h]

/-- Elements of the insertion result come from the accumulator or are the
inserted pair. -/
theorem mem_insertEraser {ers : List BlockEraser} {acc : List (Nat × Nat)}
    {p x : Nat × Nat} (h : x ∈ insertEraser ers acc p) : x ∈ acc ∨ x = p := by
  induction acc with
  | nil => simpa [insertEraser] using h
  | cons q rest ih =>
    by_cases h1 : eraserBlockSize ers q < eraserBlockSize ers p
    · simp only [insertEraser, if_pos h1, List.mem_cons] at h
      rcases h with h | h
      · exact Or.inl (by simp [h])
      · rcases ih h with h2 | h2
        · exact Or.inl (by simp [h2])
        · exact Or.inr h2
    · by_cases h2 : eraserBlockSize ers q = eraserBlockSize ers p
      · simp only [insertEraser, if_neg h1, if_pos h2, List.mem_cons] at h
        rcases h with h | h
        · exact Or.inr h
        · exact Or.inl (by simp [h])
      · simp only [insertEraser, if_neg h1, if_neg h2, List.mem_cons] at h
        rcases h with h | h | h
        · exact Or.inr h
        · exact Or.inl (by simp [h])
        · exact Or.inl (by simp [h])

/-- Insertion keeps the accumulator strictly sorted by block size. -/
theorem pairwise_insertEraser {ers : List BlockEraser} {acc : List (Nat × Nat)}
    (p : Nat × Nat)
    (h : acc.Pairwise (fun a b => eraserBlockSize ers a < eraserBlockSize ers b)) :
    (insertEraser ers acc p).Pairwise
      (fun a b => eraserBlockSize ers a < eraserBlockSize ers b) := by
  induction acc with
  | nil => simp [insertEraser]
  | cons q rest ih =>
    rw [List.pairwise_cons] at h
    obtain ⟨hq, hrest⟩ := h
    by_cases h1 : eraserBlockSize ers q < eraserBlockSize ers p
    · simp only [insertEraser, if_pos h1]
      rw [List.pairwise_cons]
      refine ⟨?_, ih hrest⟩
      intro y hy
      rcases mem_insertEraser hy with h2 | h2
      · exact hq y h2
      · rw [h2]; exact h1
    · by_cases h2 : eraserBlockSize ers q = eraserBlockSize ers p
      · simp only [insertEraser, if_neg h1, if_pos h2]
        rw [List.pairwise_cons]
        exact ⟨fun y hy => h2 ▸ hq y hy, hrest⟩
      · simp only [insertEraser, if_neg h1, if_neg h2]
        have hqp : eraserBlockSize ers p < eraserBlockSize ers q := by omega
        rw [List.pairwise_cons, List.pairwise_cons]
        refine ⟨?_, hq, hrest⟩
        intro y hy
        rcases List.mem_cons.mp hy with h3 | h3
        · rw [h3]; exact hqp
        · exact lt_trans hqp (hq y h3)

/-- A found region index points at a qualifying region. -/
theorem findQualifyingRegion_some {ebs : List EraseBlock} {H n : Nat}
    (h : findQualifyingRegion ebs H = some n) :
    ∃ eb ∈ ebs, H ≤ eb.size * eb.count := by
  induction ebs generalizing n with
  | nil => simp [findQualifyingRegion] at h
  | cons eb rest ih =>
    rw [findQualifyingRegion] at h
    by_cases h1 : H ≤ eb.size * eb.count
    · exact ⟨eb, by simp, h1⟩
    · rw [if_neg h1, Option.map_eq_some'] at h
      obtain ⟨n2, hn2, _⟩ := h
      obtain ⟨eb2, hmem, hq⟩ := ih hn2
      exact ⟨eb2, by simp [hmem], hq⟩

/-- A selected eraser has a qualifying region. -/
theorem selectEraser_some_qualifies {er : BlockEraser} {H n : Nat}
    (h : selectEraser er H = some n) :
    ∃ eb ∈ er.eraseblocks, H ≤ eb.size * eb.count := by
  rw [selectEraser] at h
  by_cases hb : er.block_erase
  · rw [if_pos hb] at h
    exact findQualifyingRegion_some h
  · rw [if_neg hb] at h
    exact absurd h (by simp)

/-- Invariant of the outer loop of `fill_sorted_erasers`: the accumulator
stays strictly sorted and every entry records a selected eraser of the
chip. -/
theorem fillSortedGo_invariant (ers : List BlockEraser) (H : Nat) :
    ∀ (l : List BlockEraser) (k : Nat) (acc : List (Nat × Nat)),
      (∀ m, m < l.length → l.getD m default = ers.getD (k + m) default) →
      acc.Pairwise (fun a b => eraserBlockSize ers a < eraserBlockSize ers b) →
      (∀ p ∈ acc, selectEraser (ers.getD p.1 default) H = some p.2) →
      (fillSortedGo ers H k l acc).Pairwise
        (fun a b => eraserBlockSize ers a < eraserBlockSize ers b) ∧
      ∀ p ∈ fillSortedGo ers H k l acc,
        selectEraser (ers.getD p.1 default) H = some p.2 := by
  intro l
  induction l with
  | nil =>
    intro k acc _ hp hq
    rw [fillSortedGo]
    exact ⟨hp, hq⟩
  | cons er rest ih =>
    intro k acc halign hp hq
    have halign2 : ∀ m, m < rest.length →
        rest.getD m default = ers.getD (k + 1 + m) default := by
      intro m hm
      have := halign (m + 1) (by simpa using Nat.succ_lt_succ hm)
      simpa [Nat.add_assoc, Nat.add_comm 1 m] using this
    have her : er = ers.getD k default := by
      have := halign 0 (by simp)
      simpa using this
    rw [fillSortedGo]
    cases hsel : selectEraser er H with
    | none => exact ih (k + 1) acc halign2 hp hq
    | some n =>
      refine ih (k + 1) _ halign2 (pairwise_insertEraser _ hp) ?_
      intro p hpmem
      rcases mem_insertEraser hpmem with hmem | hmem
      · exact hq p hmem
      · rw [hmem]
        rw [← her]
        exact hsel

/-- C6: for every chip and highest-modified-offset value, the eraser list
produced by `fill_sorted_erasers` is strictly ascending in block size (hence
ordered, without duplicate sizes), and every included eraser has a region
with `size * count` at least the highest modified offset. -/
theorem c6_sorted_erasers_ascending_qualified (ers : List BlockEraser) (H : Nat) :
    (fill_sorted_erasers ers H).Pairwise
      (fun p q => eraserBlockSize ers p < eraserBlockSize ers q) ∧
    ∀ p ∈ fill_sorted_erasers ers H,
      ∃ eb ∈ (ers.getD p.1 default).eraseblocks, H ≤ eb.size * eb.count := by
  obtain ⟨h1, h2⟩ := fillSortedGo_invariant ers H ers 0 []
    (by intro m hm; simp) (by simp) (by simp)
  refine ⟨h1, fun p hp => ?_⟩
  exact selectEraser_some_qualifies (h2 p hp)

/-- C7 counterexample: for a chip with two qualifying erasers of equal block
size, the claim predicts the earlier-enumerated eraser (index 0) is
retained; `fill_sorted_erasers` actually keeps the later one (index 1): the
equal-size branch decrements the count and then overwrites the slot with the
new entry (`action_descriptor.c:150-153` followed by lines 160-162). -/
theorem c7_counterexample :
    fill_sorted_erasers dupErasers 16 = [(1, 0)] ∧
    (0, 0) ∉ fill_sorted_erasers dupErasers 16 := by
  constructor
  · decide
  · decide

/-- C7 amended: when two qualifying erasers of the chip have equal block
size, the list retains the later-enumerated eraser — the later entry
overwrites the earlier duplicate. -/
theorem c7_amended_later_eraser_wins (e0 e1 : BlockEraser) (H n0 n1 : Nat)
    (h0 : selectEraser e0 H = some n0) (h1 : selectEraser e1 H = some n1)
    (hsz : eraserBlockSize [e0, e1] (0, n0) = eraserBlockSize [e0, e1] (1, n1)) :
    fill_sorted_erasers [e0, e1] H = [(1, n1)] := by
  have hnlt : ¬ eraserBlockSize [e0, e1] (0, n0) <
      eraserBlockSize [e0, e1] (1, n1) := by omega
  simp [fill_sorted_erasers, fillSortedGo, h0, h1, insertEraser, hnlt, hsz]

/-- Witness for the amended C7 theorem at a concrete two-eraser chip. -/
theorem c7_amended_witness :
    selectEraser ⟨true, [⟨4, 4⟩]⟩ 16 = some 0 ∧
    eraserBlockSize dupErasers (0, 0) = eraserBlockSize dupErasers (1, 0) ∧
    fill_sorted_erasers dupErasers 16 = [(1, 0)] :=
  ⟨by decide, by decide,
   c7_amended_later_eraser_wins ⟨true, [⟨4, 4⟩]⟩ ⟨true, [⟨4, 4⟩]⟩ 16 0 0
     (by decide) (by decide) (by decide)⟩

/-! ## All-clear maps: support for C3 -/

/-- `getD` on `replicate` with the replicated element as default. -/
theorem getD_replicate_self {α : Type} (x : α) (n j : Nat) :
    (List.replicate n x).getD j x = x := by
  by_cases h : j < n
  · rw [List.getD_eq_getElem _ _ (by simpa using h)]
    simp
  · exact List.getD_eq_default _ _ (by simpa using Nat.le_of_not_lt h)

/-- `getD` of a `map` over `range` at an in-range index. -/
theorem getD_map_range {α : Type} (f : Nat → α) {n l : Nat} (d : α)
    (h : l < n) : ((List.range n).map f).getD l d = f l := by
  rw [List.getD_eq_getElem _ _ (by simpa using h)]
  simp

/-- The derived default `RangeMap` is the degenerate empty map. -/
theorem default_rangeMap : (default : RangeMap) = ⟨0, 0, []⟩ := rfl

/-- `levelAt` of the init maps below the level count. -/
theorem levelAt_initMaps_lt (ers : List BlockEraser) (sorted : List (Nat × Nat))
    (chipSize : Nat) {l : Nat} (h : l < sorted.length) :
    levelAt (initMaps ers sorted chipSize) l =
      { block_size := eraserBlockSize ers (sorted.getD l (0, 0))
        limit :=
          if l + 1 < sorted.length then
            (eraserBlockSize ers (sorted.getD (l + 1) (0, 0)) /
              eraserBlockSize ers (sorted.getD l (0, 0))) * 7 / 10
          else 0
        block_map :=
          List.replicate (chipSize / eraserBlockSize ers (sorted.getD l (0, 0)))
            BMap.clear } := by
  unfold levelAt initMaps
  rw [getD_map_range _ _ h]

/-- `levelAt` of the init maps at or above the level count. -/
theorem levelAt_initMaps_ge (ers : List BlockEraser) (sorted : List (Nat × Nat))
    (chipSize : Nat) {l : Nat} (h : sorted.length ≤ l) :
    levelAt (initMaps ers sorted chipSize) l = default := by
  unfold levelAt initMaps
  exact List.getD_eq_default _ _ (by simpa using h)

/-- A fold whose step fixes the accumulator fixes the fold. -/
theorem foldl_fixed {α : Type _} {β : Type _} (g : α → β → α) (a : α)
    (xs : List β) (h : ∀ x ∈ xs, g a x = a) : xs.foldl g a = a := by
  induction xs with
  | nil => rfl
  | cons x xs ih =>
    rw [List.foldl_cons, h x (by simp)]
    exact ih (fun y hy => h y (by simp [hy]))

/-- Every block of every level is clear. -/
def AllClear (ms : List RangeMap) : Prop :=
  ∀ l j, blockAt ms l j = BMap.clear

/-- `blockAt` is `levelAt` then `getD`. -/
theorem blockAt_eq (ms : List RangeMap) (l j : Nat) :
    blockAt ms l j = (levelAt ms l).block_map.getD j BMap.clear := rfl

/-- The maps built by the init loop of `fill_action_descriptor` are
all-zero. -/
theorem allClear_initMaps (ers : List BlockEraser) (sorted : List (Nat × Nat))
    (chipSize : Nat) : AllClear (initMaps ers sorted chipSize) := by
  intro l j
  rw [blockAt_eq]
  by_cases h : l < sorted.length
  · rw [levelAt_initMaps_lt ers sorted chipSize h]
    exact getD_replicate_self _ _ _
  · rw [levelAt_initMaps_ge ers sorted chipSize (Nat.le_of_not_lt h),
      default_rangeMap]
    simp

/-- The fine diff scan leaves the map untouched when the images agree on the
whole scanned range. -/
theorem fineScan_of_eq (oldc newc : Nat → Nat) (ev bs chipSize : Nat)
    (h : ∀ t, t < chipSize → oldc t = newc t) :
    ∀ fuel i bm, fineScan oldc newc ev bs chipSize fuel i bm = bm := by
  intro fuel
  induction fuel with
  | zero => intro i bm; rfl
  | succ fuel ih =>
    intro i bm
    rw [fineScan]
    by_cases hi : i < chipSize
    · rw [if_pos hi, if_pos (h i hi)]
      exact ih _ _
    · rw [if_neg hi]

/-- `countErase` of an all-clear map is zero. -/
theorem countErase_clear (bm : List BMap) (lo n : Nat)
    (h : ∀ j, bm.getD j BMap.clear = BMap.clear) : countErase bm lo n = 0 := by
  unfold countErase
  rw [List.length_eq_zero, List.filter_eq_nil_iff]
  intro j _
  rw [h j]
  simp [BMap.clear]

/-- One fold level does nothing on all-clear maps. -/
theorem foldLevelStep_of_allClear (chipSize : Nat) (ms : List RangeMap)
    (i : Nat) (h : AllClear ms) : foldLevelStep chipSize ms i = ms := by
  unfold foldLevelStep
  apply foldl_fixed
  intro bi _
  unfold foldBlockStep
  have he : countErase (levelAt ms (i - 1)).block_map
      (bi * (bsAt ms i / bsAt ms (i - 1))) (bsAt ms i / bsAt ms (i - 1)) = 0 :=
    countErase_clear _ _ _ (fun j => h (i - 1) j)
  simp only [he]
  rw [if_neg (by omega)]

/-- The upward fold does nothing on all-clear maps. -/
theorem foldUp_of_allClear (chipSize : Nat) (ms : List RangeMap)
    (h : AllClear ms) : foldUp chipSize ms = ms := by
  unfold foldUp
  apply foldl_fixed
  intro i _
  exact foldLevelStep_of_allClear chipSize ms i h

/-- One prune level does nothing on all-clear maps. -/
theorem pruneLevel_of_allClear (chipSize : Nat) (ms : List RangeMap)
    (i : Nat) (h : AllClear ms) : pruneLevel chipSize ms i = ms := by
  unfold pruneLevel
  apply foldl_fixed
  intro bi _
  unfold pruneBlockStep
  rw [h i bi]
  simp [BMap.clear]

/-- The downward prune does nothing on all-clear maps. -/
theorem pruneFrom_of_allClear (chipSize : Nat) (ms : List RangeMap)
    (h : AllClear ms) : ∀ i, pruneFrom chipSize i ms = ms := by
  intro i
  induction i with
  | zero => rfl
  | succ i ih =>
    rw [pruneFrom, pruneLevel_of_allClear chipSize ms _ h]
    exact ih

/-- The emitter produces nothing from an all-clear level. -/
theorem emitLevel_of_clear (chipSize : Nat) (rm : RangeMap) (erIdx regIdx : Nat)
    (h : ∀ j, rm.block_map.getD j BMap.clear = BMap.clear) :
    emitLevel chipSize rm erIdx regIdx = [] := by
  have hfix : (List.range (chipSize / rm.block_size)).foldl
      (emitStep rm erIdx regIdx) ([], 0) = ([], 0) := by
    apply foldl_fixed
    intro j _
    unfold emitStep
    rw [h j]
    simp [BMap.clear]
  simp only [emitLevel, hfix]
  simp

/-- Variant of `emitLevel_of_clear` phrased through `levelAt`/`blockAt`. -/
theorem emitLevel_levelAt_of_clear (chipSize : Nat) (ms : List RangeMap)
    (i erIdx regIdx : Nat) (h : ∀ j, blockAt ms i j = BMap.clear) :
    emitLevel chipSize (levelAt ms i) erIdx regIdx = [] :=
  emitLevel_of_clear _ _ _ _ (fun j => h j)

/-- The `AllClear` property survives the level-0 rewrite of
`fill_action_descriptor` when the new map is the old one. -/
theorem allClear_updateLevel_same (ms : List RangeMap)
    (h0 : AllClear ms) :
    AllClear (updateLevel ms 0 (fun rm =>
      { rm with block_map := (levelAt ms 0).block_map })) := by
  intro l j
  rw [blockAt_eq]
  unfold levelAt updateLevel
  by_cases hl : l = 0
  · subst hl
    by_cases hlen : 0 < ms.length
    · rw [getD_set_self _ _ _ hlen]
      exact h0 0 j
    · rw [List.set_eq_of_length_le (by omega)]
      exact h0 0 j
  · rw [getD_set_ne _ _ _ (fun hx => hl hx.symm)]
    exact h0 l j

/-- C3 core: on byte-identical images `fill_action_descriptor` emits no
processing units, for any eraser selection. -/
theorem fill_action_descriptor_of_eq (ers : List BlockEraser)
    (sorted : List (Nat × Nat)) (chipSize ev : Nat) (oldc newc : Nat → Nat)
    (h : ∀ i, i < chipSize → oldc i = newc i) :
    fill_action_descriptor ers sorted chipSize ev oldc newc = [] := by
  have h0 := allClear_initMaps ers sorted chipSize
  have hscan := fineScan_of_eq oldc newc ev (bsAt (initMaps ers sorted chipSize) 0)
    chipSize h chipSize 0 (levelAt (initMaps ers sorted chipSize) 0).block_map
  have h1 := allClear_updateLevel_same _ h0
  simp only [fill_action_descriptor, hscan]
  rw [fold_range_maps, foldUp_of_allClear _ _ h1, pruneDown,
    pruneFrom_of_allClear _ _ h1]
  apply foldl_fixed
  intro i _
  unfold emitAllStep
  rw [emitLevel_levelAt_of_clear _ _ _ _ _ (fun j => h1 i j), List.append_nil]

/-- C3: when `before` and `after` are byte-for-byte identical the planner
emits no processing units — the `processing_units` array starts with the
`num_blocks = 0` sentinel, which this model renders as the empty list. -/
theorem c3_identical_images_emit_nothing (ers : List BlockEraser)
    (chipSize ev : Nat) (oldc newc : Nat → Nat)
    (h : ∀ i, i < chipSize → oldc i = newc i) :
    prepare_action_descriptor ers chipSize ev oldc newc = [] :=
  fill_action_descriptor_of_eq ers _ chipSize ev oldc newc h

/-- Witness for C3: a 1 MiB-style all-0xff identity input on the demo chip. -/
theorem c3_witness :
    prepare_action_descriptor demoErasers 8 0xff (fun _ => 0xff) (fun _ => 0xff) = [] :=
  c3_identical_images_emit_nothing demoErasers 8 0xff _ _ (fun _ _ => rfl)

/-! ## C1, C2: the diff-scan skip bug -/

/-- C1 (code bug): on the demo input `before`/`after` differ at bytes 0 and
4.  Byte 0 makes block 0 both erase- and change-marked, so the scan executes
`i += block_size; i &= ~(block_size - 1);` and the `for` update then
increments `i` once more — byte 4, the first byte of block 1, is never
examined.  Block 1 stays unmarked, no processing unit covers it, and applying
the emitted units with the ideal master leaves the final image different from
`after` at address 4. -/
theorem c1_ideal_apply_differs_from_after :
    demoOld 4 ≠ demoNew 4 ∧
    (walk_units (idealMaster 0xff) demoNew demoOld demoOld demoUnits).1 4 = 0x00 ∧
    demoNew 4 = 0x55 := by
  refine ⟨by decide, by decide, by decide⟩

/-- C2 (code bug): on the same input, address 4 differs between `before` and
`after` but is covered by no emitted processing unit — the union of covered
bytes is not a superset of the differing bytes. -/
theorem c2_uncovered_differing_byte :
    demoOld 4 ≠ demoNew 4 ∧ coversAddr demoUnits 4 = false := by
  refine ⟨by decide, by decide⟩

/-! ## C8: the erase decision uses a hard-coded 0xff erased value -/

/-- C8 (code bug): `erase_and_write_block_helper` decides the erase with
`need_erase(..., 0xff)` (`flashrom.c:1895`), not with the chip's erased
value.  On an erase-to-zero chip (erased value 0) already sitting in the
erased state, `need_erase` at the chip's erased value answers `false`, yet
the executor issues an erase — while the same function `memset`s
`curcontents` with `ERASED_VALUE(flash)` after it (`flashrom.c:1915`). -/
theorem c8_erase_decision_hardcoded_ff :
    need_erase czHave czWant 4 WriteGranularity.write_gran_1byte 0xff = true ∧
    need_erase czHave czWant 4 WriteGranularity.write_gran_1byte
      (flash_erase_value true) = false ∧
    (erase_and_write_block_helper masterZero 0 4 czHave czWant czHave).trace.head? =
      some (FlashOp.eraseOp 0 4) := by
  refine ⟨by decide, by decide, by decide⟩

/-! ## C9: paranoid per-run verification -/

/-- C9 counterexample: with a paranoid programmer and a block that needs
erase, the executor erases, checks the erased state, writes the differing
run — and never reads that run back: the run `writeOp 0 1` is not followed
by any `verifyOp` (`flashrom.c:1943-1947` skips the verify when
`block_was_erased`). -/
theorem c9_counterexample :
    (erase_and_write_block_helper parIdeal 0 4 c9Old c9New c9Old).trace =
      [FlashOp.eraseOp 0 4, FlashOp.checkErasedOp 0 4 true, FlashOp.writeOp 0 1] ∧
    writesVerified (erase_and_write_block_helper parIdeal 0 4 c9Old c9New c9Old).trace
      = false := by
  refine ⟨by decide, by decide⟩

/-- C9 amended, loop level: in a paranoid run over a block that was not
erased, a zero return from the write loop means every written run was
immediately read back and verified. -/
theorem writeLoop_ret0_verified (m : ExecMaster) (newc : Nat → Nat)
    (start len : Nat) (hp : m.paranoid = true) :
    ∀ (fuel starthere : Nat) (chip cur : Nat → Nat),
      (writeLoop m newc start len false fuel starthere chip cur).ret = 0 →
      writesVerified (writeLoop m newc start len false fuel starthere chip cur).trace
        = true := by
  intro fuel
  induction fuel with
  | zero => intro sh chip cur _; rfl
  | succ fuel ih =>
    intro sh chip cur
    rw [writeLoop]
    generalize get_next_write (fun k => cur (start + sh + k))
      (fun k => newc (start + sh + k)) (len - sh) sh m.gran = r
    generalize m.writeRet (start + r.2) r.1 = wret
    generalize m.applyWrite chip newc (start + r.2) r.1 = chip2
    intro hret
    by_cases h1 : r.1 = 0
    · simp only [if_pos h1]
      rfl
    · simp only [if_neg h1] at hret ⊢
      by_cases h2 : wret ≠ 0
      · simp only [if_pos h2] at hret
        exact absurd hret h2
      · simp only [if_neg h2, hp, Bool.not_false, Bool.and_self, if_true] at hret ⊢
        cases hok : (List.range r.1).all
            (fun k => chip2 (start + r.2 + k) == newc (start + r.2 + k)) with
        | true =>
          simp only [hok, if_true, eq_self_iff_true] at hret ⊢
          simp only [writesVerified, beq_self_eq_true, Bool.and_self, Bool.true_and]
          exact ih _ _ _ hret
        | false =>
          simp only [hok, Bool.false_eq_true, if_false] at hret
          exact absurd hret (by decide)

/-- C9 amended, loop level: a failed read-back verify makes the write loop
return `-1` and emit nothing further — the failed verify is the last
operation of the trace. -/
theorem writeLoop_false_verify_fails (m : ExecMaster) (newc : Nat → Nat)
    (start len : Nat) :
    ∀ (fuel starthere : Nat) (chip cur : Nat → Nat)
      (tr1 tr2 : List FlashOp) (s l : Nat),
      (writeLoop m newc start len false fuel starthere chip cur).trace =
        tr1 ++ FlashOp.verifyOp s l false :: tr2 →
      (writeLoop m newc start len false fuel starthere chip cur).ret = -1 ∧
        tr2 = [] := by
  intro fuel
  induction fuel with
  | zero =>
    intro sh chip cur tr1 tr2 s l heq
    rw [writeLoop] at heq
    exact absurd heq (by simp)
  | succ fuel ih =>
    intro sh chip cur tr1 tr2 s l
    rw [writeLoop]
    generalize get_next_write (fun k => cur (start + sh + k))
      (fun k => newc (start + sh + k)) (len - sh) sh m.gran = r
    generalize m.writeRet (start + r.2) r.1 = wret
    generalize m.applyWrite chip newc (start + r.2) r.1 = chip2
    intro heq
    by_cases h1 : r.1 = 0
    · simp only [if_pos h1] at heq
      exact absurd heq (by simp)
    · simp only [if_neg h1] at heq ⊢
      by_cases h2 : wret ≠ 0
      · simp only [if_pos h2] at heq ⊢
        rcases tr1 with _ | ⟨c, tr1x⟩ <;> simp at heq
      · simp only [if_neg h2] at heq ⊢
        by_cases hpb : m.paranoid = true
        · simp only [hpb, Bool.not_false, Bool.and_self, if_true] at heq ⊢
          cases hok : (List.range r.1).all
              (fun k => chip2 (start + r.2 + k) == newc (start + r.2 + k)) with
          | true =>
            simp only [hok, if_true, eq_self_iff_true] at heq ⊢
            rcases tr1 with _ | ⟨c, _ | ⟨d, tr1x⟩⟩
            · simp at heq
            · simp at heq
            · simp only [List.cons_append, List.cons.injEq] at heq
              exact ih _ _ _ tr1x tr2 s l heq.2.2
          | false =>
            simp only [hok, Bool.false_eq_true, if_false] at heq ⊢
            rcases tr1 with _ | ⟨c, _ | ⟨d, tr1x⟩⟩
            · simp at heq
            · simp only [List.cons_append, List.nil_append, List.cons.injEq] at heq
              exact ⟨by simp, heq.2.2.symm⟩
            · simp at heq
        · rw [Bool.not_eq_true] at hpb
          simp only [hpb, Bool.false_and, Bool.false_eq_true, if_false] at heq ⊢
          rcases tr1 with _ | ⟨c, tr1x⟩
          · simp at heq
          · simp only [List.cons_append, List.cons.injEq] at heq
            exact ih _ _ _ tr1x tr2 s l heq.2

/-- C9 amended: under a paranoid programmer, when the block does not need
erase (`block_was_erased` stays 0), a successful helper run has every
written run immediately read back and compared, and any failed comparison
makes the helper fail at once with `-1`, issuing nothing further. -/
theorem c9_amended_nonerased_writes_verified (m : ExecMaster) (start len : Nat)
    (cur newc chip : Nat → Nat) (hp : m.paranoid = true)
    (hne : need_erase (fun k => cur (start + k)) (fun k => newc (start + k))
      len m.gran 0xff = false) :
    ((erase_and_write_block_helper m start len cur newc chip).ret = 0 →
      writesVerified
        (erase_and_write_block_helper m start len cur newc chip).trace = true) ∧
    ∀ (tr1 tr2 : List FlashOp) (s l : Nat),
      (erase_and_write_block_helper m start len cur newc chip).trace =
        tr1 ++ FlashOp.verifyOp s l false :: tr2 →
      (erase_and_write_block_helper m start len cur newc chip).ret = -1 ∧
        tr2 = [] := by
  have hsel : erase_and_write_block_helper m start len cur newc chip =
      writeLoop m newc start len false (len + 1) 0 chip cur := by
    rw [erase_and_write_block_helper, hne]
    simp
  rw [hsel]
  exact ⟨writeLoop_ret0_verified m newc start len hp (len + 1) 0 chip cur,
    fun tr1 tr2 s l heq =>
      writeLoop_false_verify_fails m newc start len (len + 1) 0 chip cur
        tr1 tr2 s l heq⟩

/-- Witness for the amended C9 theorem: paranoid ideal master, a block whose
`before` slice is erased (no erase needed), one differing byte. -/
theorem c9_amended_witness :
    parIdeal.paranoid = true ∧
    need_erase (fun k => c9bOld (0 + k)) (fun k => c9New (0 + k)) 4
      parIdeal.gran 0xff = false ∧
    (((erase_and_write_block_helper parIdeal 0 4 c9bOld c9New c9bOld).ret = 0 →
      writesVerified
        (erase_and_write_block_helper parIdeal 0 4 c9bOld c9New c9bOld).trace = true) ∧
    ∀ (tr1 tr2 : List FlashOp) (s l : Nat),
      (erase_and_write_block_helper parIdeal 0 4 c9bOld c9New c9bOld).trace =
        tr1 ++ FlashOp.verifyOp s l false :: tr2 →
      (erase_and_write_block_helper parIdeal 0 4 c9bOld c9New c9bOld).ret = -1 ∧
        tr2 = []) :=
  ⟨rfl, by decide,
    c9_amended_nonerased_writes_verified parIdeal 0 4 c9bOld c9New c9bOld
      rfl (by decide)⟩

/-! ## C10: verify_range guards -/

/-- C10: `verify_range` returns `-1` and issues no chip read when `len = 0`,
and likewise when `start + len` exceeds the chip size — a zero-length
request is an error, not a trivial success (`flashrom.c:922-923` and
`flashrom.c:936-942`). -/
theorem c10_verify_range_guard_failures (ctx : VerifyCtx) (cmpbuf : Nat → Nat)
    (start len : Nat)
    (h : len = 0 ∨ ctx.total_size * 1024 < start + len) :
    (verify_range ctx cmpbuf start len).1 = -1 ∧
    (verify_range ctx cmpbuf start len).2 = [] := by
  unfold verify_range
  by_cases h0 : len = 0
  · rw [if_pos h0]
    exact ⟨rfl, rfl⟩
  · rw [if_neg h0]
    have hsz : ctx.total_size * 1024 < start + len := by
      rcases h with h | h
      · exact absurd h h0
      · exact h
    by_cases hr : ctx.hasRead
    · rw [if_neg (by simp [hr]), if_pos hsz]
      exact ⟨rfl, rfl⟩
    · rw [if_pos (by simp [hr])]
      exact ⟨rfl, rfl⟩

/-- Witness for C10 at a concrete context and a zero-length request. -/
theorem c10_witness :
    ((0 : Nat) = 0 ∨ vctxDemo.total_size * 1024 < 5 + 0) ∧
    (verify_range vctxDemo (fun _ => 0xff) 5 0).1 = -1 ∧
    (verify_range vctxDemo (fun _ => 0xff) 5 0).2 = [] :=
  ⟨Or.inl rfl, c10_verify_range_guard_failures vctxDemo _ 5 0 (Or.inl rfl)⟩

/-! ## C4: the fold step -/

/-- `levelAt` after `updateLevel` at another level. -/
theorem levelAt_updateLevel_ne (ms : List RangeMap) {l l2 : Nat}
    (f : RangeMap → RangeMap) (h : l ≠ l2) :
    levelAt (updateLevel ms l f) l2 = levelAt ms l2 := by
  unfold levelAt updateLevel
  exact getD_set_ne _ _ _ h

/-- `levelAt` after an in-range `updateLevel` at the same level. -/
theorem levelAt_updateLevel_self (ms : List RangeMap) {l : Nat}
    (f : RangeMap → RangeMap) (h : l < ms.length) :
    levelAt (updateLevel ms l f) l = f (levelAt ms l) := by
  unfold levelAt updateLevel
  exact getD_set_self _ _ _ h

/-- `updateLevel` out of range is a no-op. -/
theorem updateLevel_of_ge (ms : List RangeMap) {l : Nat}
    (f : RangeMap → RangeMap) (h : ms.length ≤ l) : updateLevel ms l f = ms :=
  List.set_eq_of_length_le h

/-- `updateLevel` preserves the array length. -/
theorem length_updateLevel (ms : List RangeMap) (l : Nat)
    (f : RangeMap → RangeMap) : (updateLevel ms l f).length = ms.length :=
  List.length_set ..

/-- A fold block step leaves the child level untouched. -/
theorem levelAt_foldBlockStep_child (i mult : Nat) (ms2 : List RangeMap)
    (bi : Nat) (hi : 1 ≤ i) :
    levelAt (foldBlockStep i mult ms2 bi) (i - 1) = levelAt ms2 (i - 1) := by
  unfold foldBlockStep
  split
  · exact levelAt_updateLevel_ne _ _ (by omega)
  · rfl

/-- A fold block step does not move other blocks of its level. -/
theorem blockAt_foldBlockStep_ne (i mult : Nat) (ms2 : List RangeMap)
    {bi j : Nat} (h : bi ≠ j) :
    blockAt (foldBlockStep i mult ms2 bi) i j = blockAt ms2 i j := by
  unfold foldBlockStep
  split
  · rw [blockAt_eq, blockAt_eq]
    by_cases hl : i < ms2.length
    · rw [levelAt_updateLevel_self _ _ hl]
      exact getD_set_ne _ _ _ h
    · rw [updateLevel_of_ge _ _ (Nat.le_of_not_lt hl)]
  · rfl

/-- A fold block step preserves the level's map length. -/
theorem mapLength_foldBlockStep (i mult : Nat) (ms2 : List RangeMap) (bi : Nat) :
    (levelAt (foldBlockStep i mult ms2 bi) i).block_map.length =
      (levelAt ms2 i).block_map.length := by
  unfold foldBlockStep
  split
  · by_cases hl : i < ms2.length
    · rw [levelAt_updateLevel_self _ _ hl]
      exact List.length_set ..
    · rw [updateLevel_of_ge _ _ (Nat.le_of_not_lt hl)]
  · rfl

/-- A fold block step preserves the array length. -/
theorem length_foldBlockStep (i mult : Nat) (ms2 : List RangeMap) (bi : Nat) :
    (foldBlockStep i mult ms2 bi).length = ms2.length := by
  unfold foldBlockStep
  split
  · exact length_updateLevel ..
  · rfl

/-- Folding block steps over indices other than `j` preserves block `j`, the
child level, the level's map length, and the array length. -/
theorem foldBlockStep_foldl_preserve (i mult j : Nat) (hi : 1 ≤ i) :
    ∀ (xs : List Nat) (ms2 : List RangeMap), (∀ x ∈ xs, x ≠ j) →
      blockAt (xs.foldl (foldBlockStep i mult) ms2) i j = blockAt ms2 i j ∧
      levelAt (xs.foldl (foldBlockStep i mult) ms2) (i - 1) = levelAt ms2 (i - 1) ∧
      (levelAt (xs.foldl (foldBlockStep i mult) ms2) i).block_map.length =
        (levelAt ms2 i).block_map.length ∧
      (xs.foldl (foldBlockStep i mult) ms2).length = ms2.length := by
  intro xs
  induction xs with
  | nil => intro ms2 _; exact ⟨rfl, rfl, rfl, rfl⟩
  | cons x xs ih =>
    intro ms2 hx
    rw [List.foldl_cons]
    obtain ⟨a, b, c, d⟩ := ih (foldBlockStep i mult ms2 x)
      (fun y hy => hx y (List.mem_cons_of_mem _ hy))
    refine ⟨?_, ?_, ?_, ?_⟩
    · rw [a, blockAt_foldBlockStep_ne _ _ _ (hx x (by simp))]
    · rw [b, levelAt_foldBlockStep_child _ _ _ _ hi]
    · rw [c, mapLength_foldBlockStep]
    · rw [d, length_foldBlockStep]

/-- The fold block step at its own block: overwrite per the threshold test,
otherwise leave the block. -/
theorem blockAt_foldBlockStep_self (i mult : Nat) (ms2 : List RangeMap)
    (j : Nat) (hlen : j < (levelAt ms2 i).block_map.length)
    (hiLen : i < ms2.length) :
    blockAt (foldBlockStep i mult ms2 j) i j =
      if (levelAt ms2 (i - 1)).limit <
          countErase (levelAt ms2 (i - 1)).block_map (j * mult) mult then
        ⟨decide (0 < countChange (levelAt ms2 (i - 1)).block_map (j * mult) mult),
          true⟩
      else blockAt ms2 i j := by
  unfold foldBlockStep
  split
  · rw [blockAt_eq, levelAt_updateLevel_self _ _ hiLen]
    exact getD_set_self _ _ _ hlen
  · rfl

/-- C4: the upward fold marks a parent block `j` of level `i ≥ 1` exactly
when the count `e` of erase-marked children exceeds the fold threshold
`⌊(M * 7) / 10⌋` (`M` children per parent); when marked, `need_change` is set
iff some child is change-marked; at or below the threshold the block stays
clear. -/
theorem c4_fold_marks_iff_threshold_exceeded (chipSize i j M : Nat)
    (ms : List RangeMap) (hi : 1 ≤ i)
    (hM : M = bsAt ms i / bsAt ms (i - 1))
    (hjN : j < chipSize / bsAt ms i)
    (hjLen : j < (levelAt ms i).block_map.length)
    (hInit : blockAt ms i j = BMap.clear)
    (hLim : (levelAt ms (i - 1)).limit = M * 7 / 10) :
    blockAt (foldLevelStep chipSize ms i) i j =
      ⟨decide (M * 7 / 10 <
          countErase (levelAt ms (i - 1)).block_map (j * M) M) &&
        decide (0 < countChange (levelAt ms (i - 1)).block_map (j * M) M),
       decide (M * 7 / 10 <
          countErase (levelAt ms (i - 1)).block_map (j * M) M)⟩ := by
  have hiLen : i < ms.length := by
    by_contra hx
    unfold levelAt at hjLen
    rw [List.getD_eq_default _ _ (Nat.le_of_not_lt hx), default_rangeMap] at hjLen
    simp at hjLen
  unfold foldLevelStep
  rw [← hM]
  have hN : chipSize / bsAt ms i =
      (chipSize / bsAt ms i - (j + 1)) + (j + 1) := by omega
  rw [List.range_eq_range', hN,
    ← List.range'_append 0 (j + 1) (chipSize / bsAt ms i - (j + 1)) 1,
    List.range'_concat, List.foldl_append, List.foldl_append]
  simp only [Nat.one_mul, Nat.zero_add]
  obtain ⟨a1, b1, c1, d1⟩ := foldBlockStep_foldl_preserve i M j hi
    (List.range' 0 j) ms
    (by intro x hx; rw [List.mem_range'_1] at hx; omega)
  obtain ⟨a3, _, _, _⟩ := foldBlockStep_foldl_preserve i M j hi
    (List.range' (j + 1) (chipSize / bsAt ms i - (j + 1)))
    (foldBlockStep i M ((List.range' 0 j).foldl (foldBlockStep i M) ms) j)
    (by intro x hx; rw [List.mem_range'_1] at hx; omega)
  rw [List.foldl_cons, List.foldl_nil]
  rw [a3, blockAt_foldBlockStep_self i M _ j (by rw [c1]; exact hjLen)
    (by rw [d1]; exact hiLen), b1, a1, hInit, hLim]
  by_cases hcond : M * 7 / 10 <
      countErase (levelAt ms (i - 1)).block_map (j * M) M
  · simp [hcond]
  · simp [hcond, BMap.clear]

/-- Witness for C4: one 64-byte parent over 16 four-byte children, 12 of them
erase- and change-marked; threshold `⌊16 * 7 / 10⌋ = 11` is exceeded, so the
parent is marked with `need_change`. -/
theorem c4_witness :
    (1 ≤ 1 ∧ 16 = bsAt c4Maps 1 / bsAt c4Maps 0 ∧ 0 < 64 / bsAt c4Maps 1 ∧
      0 < (levelAt c4Maps 1).block_map.length ∧
      blockAt c4Maps 1 0 = BMap.clear ∧
      (levelAt c4Maps 0).limit = 16 * 7 / 10) ∧
    blockAt (foldLevelStep 64 c4Maps 1) 1 0 =
      ⟨decide (16 * 7 / 10 < countErase (levelAt c4Maps 0).block_map 0 16) &&
        decide (0 < countChange (levelAt c4Maps 0).block_map 0 16),
       decide (16 * 7 / 10 < countErase (levelAt c4Maps 0).block_map 0 16)⟩ :=
  ⟨⟨by decide, by decide, by decide, by decide, by decide, by decide⟩,
    by
      have h := c4_fold_marks_iff_threshold_exceeded 64 1 0 16 c4Maps
        (by decide) (by decide) (by decide) (by decide) (by decide) (by decide)
      simpa using h⟩

/-! ## C5: fold invariants and the structure of `clear_all_nested` -/

/-- A predicate preserved by every step is preserved by the fold. -/
theorem foldl_preserve {α : Type _} {β : Type _} (P : α → Prop) (g : α → β → α) :
    ∀ (xs : List β) (a : α), (∀ s x, x ∈ xs → P s → P (g s x)) → P a →
      P (xs.foldl g a) := by
  intro xs
  induction xs with
  | nil => intro a _ ha; exact ha
  | cons x xs ih =>
    intro a hstep ha
    rw [List.foldl_cons]
    exact ih (g a x) (fun s y hy hs => hstep s y (by simp [hy]) hs)
      (hstep a x (by simp) ha)

/-- A fold establishes `P` if some step establishes it from any state
satisfying the invariant `I`, later steps preserve `P`, and all steps
preserve `I`. -/
theorem foldl_establish_inv {α : Type _} {β : Type _} (I P : α → Prop)
    (g : α → β → α) :
    ∀ (xs : List β) (a : α), I a →
      (∀ s x, x ∈ xs → I s → I (g s x)) →
      (∀ s x, x ∈ xs → P s → P (g s x)) →
      (∃ x ∈ xs, ∀ s, I s → P (g s x)) → P (xs.foldl g a) := by
  intro xs
  induction xs with
  | nil =>
    intro a _ _ _ hex
    obtain ⟨x, hx, _⟩ := hex
    cases hx
  | cons y ys ih =>
    intro a hIa hInv hPres hex
    rw [List.foldl_cons]
    obtain ⟨x, hx, hEst⟩ := hex
    rcases List.mem_cons.mp hx with h | h
    · subst h
      exact foldl_preserve P g ys (g a x)
        (fun s z hz hs => hPres s z (by simp [hz]) hs) (hEst a hIa)
    · exact ih (g a y) (hInv a y (by simp) hIa)
        (fun s z hz hs => hInv s z (by simp [hz]) hs)
        (fun s z hz hs => hPres s z (by simp [hz]) hs)
        ⟨x, h, hEst⟩

/-- `SkelEq` is reflexive. -/
theorem skelEq_refl (ms : List RangeMap) : SkelEq ms ms :=
  ⟨rfl, fun _ => ⟨rfl, rfl⟩⟩

/-- `SkelEq` composes. -/
theorem skelEq_trans {ms s u : List RangeMap} (h1 : SkelEq ms s)
    (h2 : SkelEq s u) : SkelEq ms u :=
  ⟨h2.1.trans h1.1, fun t =>
    ⟨(h2.2 t).1.trans (h1.2 t).1, (h2.2 t).2.trans (h1.2 t).2⟩⟩

/-- `OnlyClears` is reflexive. -/
theorem onlyClears_refl (s : List RangeMap) : OnlyClears s s :=
  fun _ _ => Or.inl rfl

/-- `OnlyClears` composes. -/
theorem onlyClears_trans {s u v : List RangeMap} (h1 : OnlyClears s u)
    (h2 : OnlyClears u v) : OnlyClears s v := by
  intro l j
  rcases h2 l j with h | h
  · rw [h]; exact h1 l j
  · exact Or.inr h

/-- Out-of-range levels read as clear. -/
theorem blockAt_of_level_ge (s : List RangeMap) (lvl j : Nat)
    (h : s.length ≤ lvl) : blockAt s lvl j = BMap.clear := by
  rw [blockAt_eq]
  unfold levelAt
  rw [List.getD_eq_default _ _ h, default_rangeMap]
  simp

/-- Out-of-range block indices read as clear. -/
theorem blockAt_of_index_ge (s : List RangeMap) (lvl j : Nat)
    (h : (levelAt s lvl).block_map.length ≤ j) :
    blockAt s lvl j = BMap.clear := by
  rw [blockAt_eq]
  exact List.getD_eq_default _ _ h

/-- A marked block is within its map. -/
theorem lt_length_of_marked {s : List RangeMap} {lvl j : Nat}
    (h : markedBlock s lvl j = true) :
    j < (levelAt s lvl).block_map.length := by
  by_contra hx
  rw [markedBlock, blockAt_of_index_ge s lvl j (Nat.le_of_not_lt hx)] at h
  simp [BMap.clear] at h

/-- `setBlk` acts on the map only. -/
theorem setBlk_block_map (rm : RangeMap) (j : Nat) (b : BMap) :
    (setBlk rm j b).block_map = rm.block_map.set j b := rfl

/-- `setBlk` keeps the block size. -/
theorem setBlk_block_size (rm : RangeMap) (j : Nat) (b : BMap) :
    (setBlk rm j b).block_size = rm.block_size := rfl

/-- A `setBlk` update keeps every level's block size. -/
theorem bsAt_updateLevel_setBlk (s : List RangeMap) (lvl j : Nat) (b : BMap)
    (t : Nat) :
    bsAt (updateLevel s lvl (fun rm => setBlk rm j b)) t = bsAt s t := by
  by_cases hl : lvl < s.length
  · by_cases ht : lvl = t
    · subst ht
      rw [bsAt, levelAt_updateLevel_self _ _ hl, setBlk_block_size]
      rfl
    · rw [bsAt, levelAt_updateLevel_ne _ _ ht]
      rfl
  · rw [updateLevel_of_ge _ _ (Nat.le_of_not_lt hl)]

/-- A `setBlk` update keeps every level's map length. -/
theorem mapLen_updateLevel_setBlk (s : List RangeMap) (lvl j : Nat) (b : BMap)
    (t : Nat) :
    (levelAt (updateLevel s lvl (fun rm => setBlk rm j b)) t).block_map.length =
      (levelAt s t).block_map.length := by
  by_cases hl : lvl < s.length
  · by_cases ht : lvl = t
    · subst ht
      rw [levelAt_updateLevel_self _ _ hl, setBlk_block_map]
      exact List.length_set ..
    · rw [levelAt_updateLevel_ne _ _ ht]
  · rw [updateLevel_of_ge _ _ (Nat.le_of_not_lt hl)]

/-- The single-block clearing update keeps the skeleton. -/
theorem skelEq_clearUpd (s : List RangeMap) (lvl j : Nat) :
    SkelEq s (updateLevel s lvl (fun rm => setBlk rm j BMap.clear)) :=
  ⟨length_updateLevel .., fun t =>
    ⟨bsAt_updateLevel_setBlk s lvl j BMap.clear t,
     mapLen_updateLevel_setBlk s lvl j BMap.clear t⟩⟩

/-- The single-block clearing update only clears. -/
theorem onlyClears_clearUpd (s : List RangeMap) (lvl j : Nat) :
    OnlyClears s (updateLevel s lvl (fun rm => setBlk rm j BMap.clear)) := by
  intro l t
  by_cases hl : lvl < s.length
  · by_cases heq : lvl = l
    · subst heq
      rw [blockAt_eq, levelAt_updateLevel_self _ _ hl, setBlk_block_map]
      by_cases ht : j = t
      · subst ht
        by_cases hj : j < (levelAt s lvl).block_map.length
        · exact Or.inr (getD_set_self _ _ _ hj)
        · rw [List.set_eq_of_length_le (Nat.le_of_not_lt hj)]
          exact Or.inl rfl
      · rw [getD_set_ne _ _ _ ht]
        exact Or.inl rfl
    · rw [blockAt_eq, levelAt_updateLevel_ne _ _ heq]
      exact Or.inl rfl
  · rw [updateLevel_of_ge _ _ (Nat.le_of_not_lt hl)]
    exact Or.inl rfl

/-- The single-block clearing update leaves other levels alone. -/
theorem blockAt_clearUpd_other (s : List RangeMap) {lvl l : Nat} (j t : Nat)
    (h : lvl ≠ l) :
    blockAt (updateLevel s lvl (fun rm => setBlk rm j BMap.clear)) l t =
      blockAt s l t := by
  rw [blockAt_eq, blockAt_eq, levelAt_updateLevel_ne _ _ h]

/-- The single-block clearing update clears its block. -/
theorem blockAt_clearUpd_self (s : List RangeMap) (lvl j : Nat) :
    blockAt (updateLevel s lvl (fun rm => setBlk rm j BMap.clear)) lvl j =
      BMap.clear := by
  by_cases hl : lvl < s.length
  · rw [blockAt_eq, levelAt_updateLevel_self _ _ hl, setBlk_block_map]
    by_cases hj : j < (levelAt s lvl).block_map.length
    · exact getD_set_self _ _ _ hj
    · rw [List.set_eq_of_length_le (Nat.le_of_not_lt hj)]
      exact List.getD_eq_default _ _ (Nat.le_of_not_lt hj)
  · rw [updateLevel_of_ge _ _ (Nat.le_of_not_lt hl)]
    exact blockAt_of_level_ge _ _ _ (Nat.le_of_not_lt hl)

/-- `clear_all_nested` keeps the skeleton. -/
theorem clear_all_nested_skel :
    ∀ (i : Nat) (s : List RangeMap) (b : Nat),
      SkelEq s (clear_all_nested i s b) := by
  intro i
  induction i with
  | zero => intro s b; rw [clear_all_nested]; exact skelEq_refl s
  | succ i ih =>
    intro s b
    rw [clear_all_nested]
    refine foldl_preserve (SkelEq s) _ _ s (fun u x _ hu => ?_) (skelEq_refl s)
    dsimp only
    by_cases h0 : 0 < i
    · rw [if_pos h0]
      exact skelEq_trans hu (skelEq_trans (skelEq_clearUpd u i x) (ih _ x))
    · rw [if_neg h0]
      exact skelEq_trans hu (skelEq_clearUpd u i x)

/-- `clear_all_nested` only clears. -/
theorem clear_all_nested_onlyClears :
    ∀ (i : Nat) (s : List RangeMap) (b : Nat),
      OnlyClears s (clear_all_nested i s b) := by
  intro i
  induction i with
  | zero => intro s b; rw [clear_all_nested]; exact onlyClears_refl s
  | succ i ih =>
    intro s b
    rw [clear_all_nested]
    refine foldl_preserve (OnlyClears s) _ _ s (fun u x _ hu => ?_)
      (onlyClears_refl s)
    dsimp only
    by_cases h0 : 0 < i
    · rw [if_pos h0]
      exact onlyClears_trans hu
        (onlyClears_trans (onlyClears_clearUpd u i x) (ih _ x))
    · rw [if_neg h0]
      exact onlyClears_trans hu (onlyClears_clearUpd u i x)

/-- One iteration of the clearing loop only clears. -/
theorem clearStep_onlyClears (i : Nat) (u : List RangeMap) (y : Nat) :
    OnlyClears u (if 0 < i then
      clear_all_nested i (updateLevel u i (fun rm => setBlk rm y BMap.clear)) y
    else updateLevel u i (fun rm => setBlk rm y BMap.clear)) := by
  by_cases h0 : 0 < i
  · rw [if_pos h0]
    exact onlyClears_trans (onlyClears_clearUpd u i y)
      (clear_all_nested_onlyClears i _ y)
  · rw [if_neg h0]
    exact onlyClears_clearUpd u i y

/-- One iteration of the clearing loop keeps the skeleton. -/
theorem clearStep_skel (i : Nat) (u : List RangeMap) (y : Nat) :
    SkelEq u (if 0 < i then
      clear_all_nested i (updateLevel u i (fun rm => setBlk rm y BMap.clear)) y
    else updateLevel u i (fun rm => setBlk rm y BMap.clear)) := by
  by_cases h0 : 0 < i
  · rw [if_pos h0]
    exact skelEq_trans (skelEq_clearUpd u i y) (clear_all_nested_skel i _ y)
  · rw [if_neg h0]
    exact skelEq_clearUpd u i y

/-- `clear_all_nested` from level `i` does not touch levels at or above
`i`. -/
theorem clear_all_nested_untouched :
    ∀ (i : Nat) (s : List RangeMap) (b l j : Nat), i ≤ l →
      blockAt (clear_all_nested i s b) l j = blockAt s l j := by
  intro i
  induction i with
  | zero => intro s b l j _; rw [clear_all_nested]
  | succ i ih =>
    intro s b l j hl
    rw [clear_all_nested]
    refine foldl_preserve (fun u => blockAt u l j = blockAt s l j) _ _ s
      (fun u x _ hu => ?_) rfl
    dsimp only
    by_cases h0 : 0 < i
    · rw [if_pos h0, ih _ x l j (by omega), blockAt_clearUpd_other _ _ _ (by omega)]
      exact hu
    · rw [if_neg h0, blockAt_clearUpd_other _ _ _ (by omega)]
      exact hu

/-- Two blocks of nested granularities (`bs1 ∣ bs2`) sharing a byte address
are nested: the finer block's range lies inside the coarser one's. -/
theorem nested_of_common_point {bs1 bs2 j p a : Nat}
    (hdvd : bs1 ∣ bs2) (hj1 : bs1 * j ≤ a) (hj2 : a < bs1 * (j + 1))
    (hp1 : bs2 * p ≤ a) (hp2 : a < bs2 * (p + 1)) :
    bs2 * p ≤ bs1 * j ∧ bs1 * (j + 1) ≤ bs2 * (p + 1) := by
  obtain ⟨m, hm⟩ := hdvd
  subst hm
  constructor
  · have hx : bs1 * (m * p) < bs1 * (j + 1) := by
      calc bs1 * (m * p) = bs1 * m * p := by ring
        _ ≤ a := hp1
        _ < bs1 * (j + 1) := hj2
    have h2 := Nat.lt_of_mul_lt_mul_left hx
    calc bs1 * m * p = bs1 * (m * p) := by ring
      _ ≤ bs1 * j := Nat.mul_le_mul_left _ (by omega)
  · have hx : bs1 * j < bs1 * (m * (p + 1)) := by
      calc bs1 * j ≤ a := hj1
        _ < bs1 * m * (p + 1) := hp2
        _ = bs1 * (m * (p + 1)) := by ring
    have h2 := Nat.lt_of_mul_lt_mul_left hx
    calc bs1 * (j + 1) ≤ bs1 * (m * (p + 1)) := Nat.mul_le_mul_left _ (by omega)
      _ = bs1 * m * (p + 1) := by ring

/-- The size-`bs2` block containing a given size-`bs1` block (`bs1 ∣ bs2`):
containment bounds for index `bs1 * j / bs2`. -/
theorem child_block_contains {bs1 bs2 j : Nat} (h1 : 0 < bs1) (h2 : 0 < bs2)
    (hdvd : bs1 ∣ bs2) :
    bs2 * (bs1 * j / bs2) ≤ bs1 * j ∧
      bs1 * (j + 1) ≤ bs2 * (bs1 * j / bs2 + 1) := by
  obtain ⟨m, hm⟩ := hdvd
  subst hm
  have hm0 : 0 < m := by
    rcases Nat.eq_zero_or_pos m with h | h
    · subst h; simp at h2
    · exact h
  have hq : bs1 * j / (bs1 * m) = j / m := Nat.mul_div_mul_left j m h1 ▸ rfl
  constructor
  · rw [hq, Nat.mul_comm (bs1 * m)]
    calc j / m * (bs1 * m) = j / m * m * bs1 := by ring
      _ ≤ j * bs1 := Nat.mul_le_mul_right _ (Nat.div_mul_le_self j m)
      _ = bs1 * j := by ring
  · rw [hq]
    have hdm := Nat.div_add_mod j m
    have hlt := Nat.mod_lt j hm0
    calc bs1 * (j + 1) ≤ bs1 * (m * (j / m) + m) := by
          apply Nat.mul_le_mul_left
          omega
      _ = bs1 * m * (j / m + 1) := by ring

/-- Divisibility of block sizes along the level chain. -/
theorem bsAt_dvd_chain (s : List RangeMap)
    (hdvd : ∀ t, t + 1 < s.length → bsAt s t ∣ bsAt s (t + 1)) :
    ∀ l k, l ≤ k → k < s.length → bsAt s l ∣ bsAt s k := by
  intro l k
  induction k with
  | zero =>
    intro h _
    have : l = 0 := by omega
    subst this
    exact dvd_refl _
  | succ k ih =>
    intro hlk hk
    rcases Nat.lt_or_ge l (k + 1) with h | h
    · exact dvd_trans (ih (by omega) (by omega)) (hdvd k hk)
    · have : l = k + 1 := by omega
      subst this
      exact dvd_refl _

/-- Under nested block sizes, `clear_all_nested` clears every lower-level
block whose address range lies inside the cleared block's range. -/
theorem clear_all_nested_clears :
    ∀ (i : Nat) (s : List RangeMap) (b l j : Nat),
      (∀ t, t + 1 < s.length → bsAt s t ∣ bsAt s (t + 1)) →
      (∀ t, t < s.length → 0 < bsAt s t) →
      l < i → i < s.length →
      bsAt s i * b ≤ bsAt s l * j →
      bsAt s l * (j + 1) ≤ bsAt s i * (b + 1) →
      blockAt (clear_all_nested i s b) l j = BMap.clear := by
  intro i
  induction i with
  | zero => intro s b l j _ _ hl _ _ _; omega
  | succ i ih =>
    intro s b l j hdvd hpos hl hiLen hsub1 hsub2
    have hposi : 0 < bsAt s i := hpos i (by omega)
    have hposi1 : 0 < bsAt s (i + 1) := hpos (i + 1) hiLen
    have hposl : 0 < bsAt s l := hpos l (by omega)
    obtain ⟨m, hm⟩ := hdvd i hiLen
    have hm0 : 0 < m := by
      rcases Nat.eq_zero_or_pos m with h | h
      · rw [h, Nat.mul_zero] at hm
        omega
      · exact h
    have hlo : bsAt s (i + 1) * b / bsAt s i = m * b := by
      rw [hm, Nat.mul_assoc]
      exact Nat.mul_div_cancel_left _ hposi
    have hhi : (bsAt s (i + 1) * b + bsAt s (i + 1)) / bsAt s i = m * b + m := by
      rw [hm]
      rw [show bsAt s i * m * b + bsAt s i * m = bsAt s i * (m * b + m) by ring]
      exact Nat.mul_div_cancel_left _ hposi
    rw [clear_all_nested]
    refine foldl_establish_inv (SkelEq s) (fun u => blockAt u l j = BMap.clear)
      _ _ s (skelEq_refl s) ?_ ?_ ?_
    · intro u x _ hu
      dsimp only
      exact skelEq_trans hu (clearStep_skel i u x)
    · intro u x _ hP
      dsimp only
      rcases clearStep_onlyClears i u x l j with h | h
      · rw [h]; exact hP
      · exact h
    · rcases Nat.lt_or_ge l i with hli | hli
      · -- the block lies strictly below the direct child level
        have h0i : 0 < i := by omega
        have hdvdli : bsAt s l ∣ bsAt s i :=
          bsAt_dvd_chain s hdvd l i (by omega) (by omega)
        obtain ⟨hc1, hc2⟩ := child_block_contains hposl hposi hdvdli (j := j)
        have hjp2 : bsAt s l * j < bsAt s i * (bsAt s l * j / bsAt s i + 1) := by
          have := Nat.mul_lt_mul_of_pos_left (show j < j + 1 by omega) hposl
          omega
        have hb2 : bsAt s l * j < bsAt s (i + 1) * (b + 1) := by
          have := Nat.mul_lt_mul_of_pos_left (show j < j + 1 by omega) hposl
          omega
        obtain ⟨hn1, hn2⟩ := nested_of_common_point ⟨m, hm⟩ hc1 hjp2 hsub1 hb2
        have hmem1 : m * b ≤ bsAt s l * j / bsAt s i := by
          have hx : bsAt s i * (m * b) ≤
              bsAt s i * (bsAt s l * j / bsAt s i) := by
            calc bsAt s i * (m * b) = bsAt s (i + 1) * b := by rw [hm]; ring
              _ ≤ _ := hn1
          exact Nat.le_of_mul_le_mul_left hx hposi
        have hmem2 : bsAt s l * j / bsAt s i < m * b + m := by
          have hx : bsAt s i * (bsAt s l * j / bsAt s i + 1) ≤
              bsAt s i * (m * b + m) := by
            calc bsAt s i * (bsAt s l * j / bsAt s i + 1) ≤
                bsAt s (i + 1) * (b + 1) := hn2
              _ = bsAt s i * (m * b + m) := by rw [hm]; ring
          have := Nat.le_of_mul_le_mul_left hx hposi
          omega
        refine ⟨bsAt s l * j / bsAt s i, ?_, ?_⟩
        · rw [List.mem_range'_1, hlo, hhi]
          omega
        · intro u hu
          dsimp only
          rw [if_pos h0i]
          have hu3 : SkelEq s (updateLevel u i
              (fun rm => setBlk rm (bsAt s l * j / bsAt s i) BMap.clear)) :=
            skelEq_trans hu (skelEq_clearUpd u i _)
          refine ih _ _ l j ?_ ?_ hli ?_ ?_ ?_
          · intro t ht
            rw [(hu3.2 t).1, (hu3.2 (t + 1)).1]
            exact hdvd t (by rw [hu3.1] at ht; omega)
          · intro t ht
            rw [(hu3.2 t).1]
            exact hpos t (by rw [hu3.1] at ht; omega)
          · rw [hu3.1]; omega
          · rw [(hu3.2 i).1, (hu3.2 l).1]
            exact hc1
          · rw [(hu3.2 l).1, (hu3.2 i).1]
            exact hc2
      · -- the block is at the direct child level
        have hleq : l = i := by omega
        subst hleq
        have hmem1 : m * b ≤ j := by
          have hx : bsAt s l * (m * b) ≤ bsAt s l * j := by
            calc bsAt s l * (m * b) = bsAt s (l + 1) * b := by rw [hm]; ring
              _ ≤ _ := hsub1
          exact Nat.le_of_mul_le_mul_left hx hposl
        have hmem2 : j < m * b + m := by
          have hx : bsAt s l * (j + 1) ≤ bsAt s l * (m * b + m) := by
            calc bsAt s l * (j + 1) ≤ bsAt s (l + 1) * (b + 1) := hsub2
              _ = bsAt s l * (m * b + m) := by rw [hm]; ring
          have := Nat.le_of_mul_le_mul_left hx hposl
          omega
        refine ⟨j, ?_, ?_⟩
        · rw [List.mem_range'_1, hlo, hhi]
          omega
        · intro u _
          dsimp only
          by_cases h0 : 0 < l
          · rw [if_pos h0,
              clear_all_nested_untouched l _ j l j (Nat.le_refl l),
              blockAt_clearUpd_self]
          · rw [if_neg h0, blockAt_clearUpd_self]

/-- `pruneBlockStep` only clears. -/
theorem pruneBlockStep_onlyClears (i : Nat) (u : List RangeMap) (bi : Nat) :
    OnlyClears u (pruneBlockStep i u bi) := by
  unfold pruneBlockStep
  split
  · exact clear_all_nested_onlyClears i u bi
  · exact onlyClears_refl u

/-- `pruneBlockStep` keeps the skeleton. -/
theorem pruneBlockStep_skel (i : Nat) (u : List RangeMap) (bi : Nat) :
    SkelEq u (pruneBlockStep i u bi) := by
  unfold pruneBlockStep
  split
  · exact clear_all_nested_skel i u bi
  · exact skelEq_refl u

/-- `pruneBlockStep` does not touch levels at or above `i`. -/
theorem pruneBlockStep_untouched (i : Nat) (u : List RangeMap) (bi l j : Nat)
    (h : i ≤ l) : blockAt (pruneBlockStep i u bi) l j = blockAt u l j := by
  unfold pruneBlockStep
  split
  · exact clear_all_nested_untouched i u bi l j h
  · rfl

/-- `pruneLevel` only clears. -/
theorem pruneLevel_onlyClears (chipSize : Nat) (s : List RangeMap) (i : Nat) :
    OnlyClears s (pruneLevel chipSize s i) := by
  unfold pruneLevel
  exact foldl_preserve (OnlyClears s) _ _ s
    (fun u x _ hu => onlyClears_trans hu (pruneBlockStep_onlyClears i u x))
    (onlyClears_refl s)

/-- `pruneLevel` keeps the skeleton. -/
theorem pruneLevel_skel (chipSize : Nat) (s : List RangeMap) (i : Nat) :
    SkelEq s (pruneLevel chipSize s i) := by
  unfold pruneLevel
  exact foldl_preserve (SkelEq s) _ _ s
    (fun u x _ hu => skelEq_trans hu (pruneBlockStep_skel i u x))
    (skelEq_refl s)

/-- `pruneLevel` does not touch levels at or above `i`. -/
theorem pruneLevel_untouched (chipSize : Nat) (s : List RangeMap) (i l j : Nat)
    (h : i ≤ l) : blockAt (pruneLevel chipSize s i) l j = blockAt s l j := by
  unfold pruneLevel
  refine foldl_preserve (fun u => blockAt u l j = blockAt s l j) _ _ s
    (fun u x _ hu => ?_) rfl
  show blockAt (pruneBlockStep i u x) l j = blockAt s l j
  rw [pruneBlockStep_untouched i u x l j h]
  exact hu

/-- `pruneLevel` clears everything nested under an erase-marked block of its
level. -/
theorem pruneLevel_clears_below (chipSize : Nat) (s : List RangeMap) (i : Nat)
    (hdvd : ∀ t, t + 1 < s.length → bsAt s t ∣ bsAt s (t + 1))
    (hpos : ∀ t, t < s.length → 0 < bsAt s t)
    (hiLen : i < s.length) (p l j : Nat)
    (hmark : (blockAt s i p).need_erase = true)
    (hpN : p < chipSize / bsAt s i) (hl : l < i)
    (hsub1 : bsAt s i * p ≤ bsAt s l * j)
    (hsub2 : bsAt s l * (j + 1) ≤ bsAt s i * (p + 1)) :
    blockAt (pruneLevel chipSize s i) l j = BMap.clear := by
  unfold pruneLevel
  refine foldl_establish_inv
    (fun u => SkelEq s u ∧ ∀ q, blockAt u i q = blockAt s i q)
    (fun u => blockAt u l j = BMap.clear) _ _ s
    ⟨skelEq_refl s, fun _ => rfl⟩ ?_ ?_ ?_
  · intro u x _ hu
    refine ⟨skelEq_trans hu.1 (pruneBlockStep_skel i u x), fun q => ?_⟩
    rw [pruneBlockStep_untouched i u x i q (Nat.le_refl i)]
    exact hu.2 q
  · intro u x _ hP
    rcases pruneBlockStep_onlyClears i u x l j with h | h
    · rw [h]; exact hP
    · exact h
  · refine ⟨p, ?_, ?_⟩
    · rw [List.mem_range]
      exact hpN
    · intro u hu
      unfold pruneBlockStep
      have hcond : (blockAt u i p).need_erase = true := by
        rw [hu.2 p]; exact hmark
      rw [if_pos hcond]
      refine clear_all_nested_clears i u p l j ?_ ?_ hl ?_ ?_ ?_
      · intro t ht
        rw [(hu.1.2 t).1, (hu.1.2 (t + 1)).1]
        exact hdvd t (by rw [hu.1.1] at ht; omega)
      · intro t ht
        rw [(hu.1.2 t).1]
        exact hpos t (by rw [hu.1.1] at ht; omega)
      · rw [hu.1.1]; omega
      · rw [(hu.1.2 i).1, (hu.1.2 l).1]
        exact hsub1
      · rw [(hu.1.2 l).1, (hu.1.2 i).1]
        exact hsub2

/-- `pruneFrom` keeps the skeleton. -/
theorem pruneFrom_skel (chipSize : Nat) :
    ∀ (i : Nat) (s : List RangeMap), SkelEq s (pruneFrom chipSize i s) := by
  intro i
  induction i with
  | zero => intro s; rw [pruneFrom]; exact skelEq_refl s
  | succ i ih =>
    intro s
    rw [pruneFrom]
    exact skelEq_trans (pruneLevel_skel chipSize s (i + 1)) (ih _)

/-- `pruneFrom` only clears. -/
theorem pruneFrom_onlyClears (chipSize : Nat) :
    ∀ (i : Nat) (s : List RangeMap), OnlyClears s (pruneFrom chipSize i s) := by
  intro i
  induction i with
  | zero => intro s; rw [pruneFrom]; exact onlyClears_refl s
  | succ i ih =>
    intro s
    rw [pruneFrom]
    exact onlyClears_trans (pruneLevel_onlyClears chipSize s (i + 1)) (ih _)

/-- Main separation invariant of the downward pass: once `pruneFrom` has
processed levels `i` down to 1, every erase-marked block at a level `k ≥ 1`
has all strictly lower-level blocks inside its range cleared — provided the
property already held for levels above `i`. -/
theorem pruneFrom_sep (chipSize : Nat) (ms : List RangeMap)
    (hdvd : ∀ t, t + 1 < ms.length → bsAt ms t ∣ bsAt ms (t + 1))
    (hpos : ∀ t, t < ms.length → 0 < bsAt ms t)
    (hlen : ∀ t, t < ms.length →
      (levelAt ms t).block_map.length = chipSize / bsAt ms t) :
    ∀ (i : Nat) (s : List RangeMap), SkelEq ms s →
      (∀ k p l j, i + 1 ≤ k → k < s.length →
        (blockAt s k p).need_erase = true → l < k →
        bsAt ms k * p ≤ bsAt ms l * j →
        bsAt ms l * (j + 1) ≤ bsAt ms k * (p + 1) →
        blockAt s l j = BMap.clear) →
      ∀ k p l j, 1 ≤ k → k < (pruneFrom chipSize i s).length →
        (blockAt (pruneFrom chipSize i s) k p).need_erase = true → l < k →
        bsAt ms k * p ≤ bsAt ms l * j →
        bsAt ms l * (j + 1) ≤ bsAt ms k * (p + 1) →
        blockAt (pruneFrom chipSize i s) l j = BMap.clear := by
  intro i
  induction i with
  | zero =>
    intro s hskel hsep k p l j hk1 hkLen hmark hl hsub1 hsub2
    rw [pruneFrom] at hkLen hmark ⊢
    exact hsep k p l j (by omega) hkLen hmark hl hsub1 hsub2
  | succ i ih =>
    intro s hskel hsep
    rw [pruneFrom]
    refine ih (pruneLevel chipSize s (i + 1))
      (skelEq_trans hskel (pruneLevel_skel chipSize s (i + 1))) ?_
    intro k p l j hk hkLen hmark hl hsub1 hsub2
    have hskel2 : SkelEq ms (pruneLevel chipSize s (i + 1)) :=
      skelEq_trans hskel (pruneLevel_skel chipSize s (i + 1))
    rcases Nat.eq_or_lt_of_le hk with heq | hlt
    · -- `k` is exactly the level just pruned
      subst heq
      have hmark2 : (blockAt s (i + 1) p).need_erase = true := by
        rw [← pruneLevel_untouched chipSize s (i + 1) (i + 1) p (Nat.le_refl _)]
        exact hmark
      have hkMs : i + 1 < ms.length := by
        rw [hskel2.1] at hkLen
        exact hkLen
      have hpN : p < chipSize / bsAt s (i + 1) := by
        have hmb : markedBlock s (i + 1) p = true := by
          rw [markedBlock, hmark2]
          simp
        have h1 := lt_length_of_marked hmb
        rw [(hskel.2 (i + 1)).2, hlen (i + 1) hkMs, ← (hskel.2 (i + 1)).1] at h1
        exact h1
      refine pruneLevel_clears_below chipSize s (i + 1) ?_ ?_ ?_ p l j hmark2
        hpN hl ?_ ?_
      · intro t ht
        rw [(hskel.2 t).1, (hskel.2 (t + 1)).1]
        exact hdvd t (by rw [hskel.1] at ht; omega)
      · intro t ht
        rw [(hskel.2 t).1]
        exact hpos t (by rw [hskel.1] at ht; omega)
      · rw [hskel.1]; exact hkMs
      · rw [(hskel.2 (i + 1)).1, (hskel.2 l).1]
        exact hsub1
      · rw [(hskel.2 l).1, (hskel.2 (i + 1)).1]
        exact hsub2
    · -- `k` is above the level just pruned
      have hmark2 : (blockAt s k p).need_erase = true := by
        rw [← pruneLevel_untouched chipSize s (i + 1) k p (by omega)]
        exact hmark
      have hkS : k < s.length := by
        rw [(pruneLevel_skel chipSize s (i + 1)).1] at hkLen
        exact hkLen
      have h := hsep k p l j (by omega) hkS hmark2 hl hsub1 hsub2
      rcases pruneLevel_onlyClears chipSize s (i + 1) l j with h2 | h2
      · rw [h2]; exact h
      · exact h2

/-- `foldBlockStep` keeps the skeleton. -/
theorem foldBlockStep_skel (i mult : Nat) (u : List RangeMap) (bi : Nat) :
    SkelEq u (foldBlockStep i mult u bi) := by
  unfold foldBlockStep
  split
  · exact ⟨length_updateLevel .., fun t =>
      ⟨bsAt_updateLevel_setBlk .., mapLen_updateLevel_setBlk ..⟩⟩
  · exact skelEq_refl u

/-- `foldLevelStep` keeps the skeleton. -/
theorem foldLevelStep_skel (chipSize : Nat) (s : List RangeMap) (i : Nat) :
    SkelEq s (foldLevelStep chipSize s i) := by
  unfold foldLevelStep
  exact foldl_preserve (SkelEq s) _ _ s
    (fun u x _ hu => skelEq_trans hu (foldBlockStep_skel i _ u x))
    (skelEq_refl s)

/-- `foldUp` keeps the skeleton. -/
theorem foldUp_skel (chipSize : Nat) (s : List RangeMap) :
    SkelEq s (foldUp chipSize s) := by
  unfold foldUp
  exact foldl_preserve (SkelEq s) _ _ s
    (fun u x _ hu => skelEq_trans hu (foldLevelStep_skel chipSize u x))
    (skelEq_refl s)

/-- A `setBlk` update leaves every block either unchanged or equal to the
written value. -/
theorem blockAt_updateLevel_setBlk_cases (s : List RangeMap) (lvl j : Nat)
    (b : BMap) (k p : Nat) :
    blockAt (updateLevel s lvl (fun rm => setBlk rm j b)) k p = blockAt s k p ∨
      blockAt (updateLevel s lvl (fun rm => setBlk rm j b)) k p = b := by
  by_cases hl : lvl < s.length
  · by_cases heq : lvl = k
    · subst heq
      rw [blockAt_eq, levelAt_updateLevel_self _ _ hl, setBlk_block_map]
      by_cases ht : j = p
      · subst ht
        by_cases hj : j < (levelAt s lvl).block_map.length
        · exact Or.inr (getD_set_self _ _ _ hj)
        · rw [List.set_eq_of_length_le (Nat.le_of_not_lt hj)]
          exact Or.inl rfl
      · rw [getD_set_ne _ _ _ ht]
        exact Or.inl rfl
    · rw [blockAt_eq, levelAt_updateLevel_ne _ _ heq]
      exact Or.inl rfl
  · rw [updateLevel_of_ge _ _ (Nat.le_of_not_lt hl)]
    exact Or.inl rfl

/-- A fold block step preserves "change implies erase" everywhere, because
the only values it writes carry `need_erase = true`. -/
theorem foldBlockStep_changeImp (i mult : Nat) (u : List RangeMap) (bi : Nat)
    (h : ∀ k p, 1 ≤ k → (blockAt u k p).need_change = true →
      (blockAt u k p).need_erase = true) :
    ∀ k p, 1 ≤ k →
      (blockAt (foldBlockStep i mult u bi) k p).need_change = true →
      (blockAt (foldBlockStep i mult u bi) k p).need_erase = true := by
  intro k p hk
  unfold foldBlockStep
  split
  · rcases blockAt_updateLevel_setBlk_cases u i bi
      ⟨decide (0 < countChange (levelAt u (i - 1)).block_map (bi * mult) mult),
        true⟩ k p with h2 | h2
    · rw [h2]
      exact h k p hk
    · rw [h2]
      intro _
      rfl
  · exact h k p hk

/-- After the upward fold over initially clear upper levels, `need_change`
implies `need_erase` at every level `k ≥ 1`. -/
theorem foldUp_changeImp (chipSize : Nat) (ms : List RangeMap)
    (h0 : ∀ k p, 1 ≤ k → blockAt ms k p = BMap.clear) :
    ∀ k p, 1 ≤ k →
      (blockAt (foldUp chipSize ms) k p).need_change = true →
      (blockAt (foldUp chipSize ms) k p).need_erase = true := by
  unfold foldUp
  refine foldl_preserve
    (fun u => ∀ k p, 1 ≤ k → (blockAt u k p).need_change = true →
      (blockAt u k p).need_erase = true) _ _ ms ?_ ?_
  · intro u i _ hu
    unfold foldLevelStep
    exact foldl_preserve _ _ _ u
      (fun v x _ hv => foldBlockStep_changeImp i _ v x hv) hu
  · intro k p hk hchg
    rw [h0 k p hk] at hchg
    simp [BMap.clear] at hchg

/-- "Change implies erase" survives clearing. -/
theorem changeImp_of_onlyClears {s u : List RangeMap} (hoc : OnlyClears s u)
    (h : ∀ k p, 1 ≤ k → (blockAt s k p).need_change = true →
      (blockAt s k p).need_erase = true) :
    ∀ k p, 1 ≤ k → (blockAt u k p).need_change = true →
      (blockAt u k p).need_erase = true := by
  intro k p hk hchg
  rcases hoc k p with h2 | h2
  · rw [h2] at hchg ⊢
    exact h k p hk hchg
  · rw [h2] at hchg
    simp [BMap.clear] at hchg

/-- A run of marked blocks covers only marked blocks, bytewise. -/
theorem emitRun_good (rm : RangeMap) (er reg j consec : Nat)
    (hbs : 0 < rm.block_size) (hcj : consec ≤ j)
    (hmk : ∀ t, j - consec ≤ t → t < j →
      ((rm.block_map.getD t BMap.clear).need_erase ||
        (rm.block_map.getD t BMap.clear).need_change) = true) :
    ∀ a, (emitRun rm.block_size er reg j consec).offset ≤ a →
      a < (emitRun rm.block_size er reg j consec).offset +
        (emitRun rm.block_size er reg j consec).num_blocks *
          (emitRun rm.block_size er reg j consec).block_size →
      ((rm.block_map.getD (a / rm.block_size) BMap.clear).need_erase ||
        (rm.block_map.getD (a / rm.block_size) BMap.clear).need_change)
        = true := by
  intro a h1 h2
  apply hmk
  · rw [Nat.le_div_iff_mul_le hbs]
    exact h1
  · rw [Nat.div_lt_iff_lt_mul hbs]
    have h3 : (j - consec) * rm.block_size + consec * rm.block_size =
        j * rm.block_size := by
      rw [← Nat.add_mul]
      congr 1
      omega
    have h4 : (emitRun rm.block_size er reg j consec).offset +
        (emitRun rm.block_size er reg j consec).num_blocks *
          (emitRun rm.block_size er reg j consec).block_size =
        j * rm.block_size := h3
    omega

/-- Invariant of the emission loop: the counter never exceeds the scanned
prefix, it counts a trailing run of marked blocks, and every emitted unit
covers only marked blocks. -/
theorem emit_fold_inv (rm : RangeMap) (er reg : Nat) (hbs : 0 < rm.block_size) :
    ∀ n : Nat,
      ((List.range n).foldl (emitStep rm er reg) ([], 0)).2 ≤ n ∧
      (∀ t, n - ((List.range n).foldl (emitStep rm er reg) ([], 0)).2 ≤ t →
        t < n →
        ((rm.block_map.getD t BMap.clear).need_erase ||
          (rm.block_map.getD t BMap.clear).need_change) = true) ∧
      (∀ pu ∈ ((List.range n).foldl (emitStep rm er reg) ([], 0)).1,
        pu.block_size = rm.block_size ∧
        ∀ a, pu.offset ≤ a → a < pu.offset + pu.num_blocks * pu.block_size →
          ((rm.block_map.getD (a / rm.block_size) BMap.clear).need_erase ||
            (rm.block_map.getD (a / rm.block_size) BMap.clear).need_change)
            = true) := by
  intro n
  induction n with
  | zero =>
    refine ⟨Nat.le_refl 0, fun t h1 h2 => by omega, fun pu hpu => ?_⟩
    simp [List.range_zero] at hpu
  | succ n ih =>
    rw [List.range_succ, List.foldl_append, List.foldl_cons, List.foldl_nil]
    set st := (List.range n).foldl (emitStep rm er reg) ([], 0) with hst
    obtain ⟨ih1, ih2, ih3⟩ := ih
    unfold emitStep
    dsimp only
    by_cases hmk : ((rm.block_map.getD n BMap.clear).need_erase ||
        (rm.block_map.getD n BMap.clear).need_change) = true
    · rw [if_pos hmk]
      refine ⟨by omega, ?_, ih3⟩
      intro t h1 h2
      rcases Nat.lt_or_ge t n with h | h
      · exact ih2 t (by omega) h
      · have ht : t = n := by omega
        rw [ht]
        exact hmk
    · rw [if_neg hmk]
      by_cases hz : st.2 = 0
      · rw [if_pos hz]
        refine ⟨by omega, ?_, ih3⟩
        intro t h1 h2
        omega
      · rw [if_neg hz]
        refine ⟨by omega, ?_, ?_⟩
        · intro t h1 h2
          omega
        · intro pu hpu
          rcases List.mem_append.mp hpu with h | h
          · exact ih3 pu h
          · rw [List.mem_singleton] at h
            rw [h]
            refine ⟨rfl, emitRun_good rm er reg n st.2 hbs ih1 ?_⟩
            intro t h1 h2
            exact ih2 t h1 (by omega)

/-- Every emitted processing unit of a level has that level's block size and
covers only marked blocks. -/
theorem emitLevel_sound (chipSize : Nat) (rm : RangeMap) (erIdx regIdx : Nat)
    (hbs : 0 < rm.block_size) :
    ∀ pu ∈ emitLevel chipSize rm erIdx regIdx,
      pu.block_size = rm.block_size ∧
      ∀ a, pu.offset ≤ a → a < pu.offset + pu.num_blocks * pu.block_size →
        ((rm.block_map.getD (a / rm.block_size) BMap.clear).need_erase ||
          (rm.block_map.getD (a / rm.block_size) BMap.clear).need_change)
          = true := by
  intro pu hpu
  obtain ⟨ih1, ih2, ih3⟩ := emit_fold_inv rm erIdx regIdx hbs
    (chipSize / rm.block_size)
  rw [emitLevel] at hpu
  by_cases hz : ((List.range (chipSize / rm.block_size)).foldl
      (emitStep rm erIdx regIdx) ([], 0)).2 = 0
  · rw [if_pos hz] at hpu
    exact ih3 pu hpu
  · rw [if_neg hz] at hpu
    rcases List.mem_append.mp hpu with h | h
    · exact ih3 pu h
    · rw [List.mem_singleton] at h
      rw [h]
      refine ⟨rfl, emitRun_good rm erIdx regIdx (chipSize / rm.block_size) _
        hbs ih1 ?_⟩
      intro t h1 h2
      exact ih2 t h1 h2

/-- The Boolean well-formedness of a range-map array, unpacked. -/
theorem wfMaps_spec {chipSize : Nat} {ms : List RangeMap}
    (hwf : wfMaps chipSize ms = true) :
    ∀ t, t < ms.length → 0 < bsAt ms t ∧
      (levelAt ms t).block_map.length = chipSize / bsAt ms t ∧
      (t + 1 < ms.length → bsAt ms t < bsAt ms (t + 1) ∧
        bsAt ms t ∣ bsAt ms (t + 1)) := by
  intro t ht
  rw [wfMaps, List.all_eq_true] at hwf
  have h := hwf t (by rw [List.mem_range]; exact ht)
  simp only [Bool.and_eq_true, Bool.or_eq_true, Bool.not_eq_true',
    decide_eq_true_eq, beq_iff_eq, decide_eq_false_iff_not] at h
  obtain ⟨⟨h1, h2⟩, h3⟩ := h
  refine ⟨h1, h2, fun h4 => ?_⟩
  rcases h3 with h3 | h3
  · exact absurd h4 h3
  · exact h3

/-- The Boolean upper-levels-clear condition, unpacked. -/
theorem upperLevelsClear_spec {ms : List RangeMap}
    (h : upperLevelsClear ms = true) :
    ∀ k p, 1 ≤ k → blockAt ms k p = BMap.clear := by
  intro k p hk
  by_cases hkLen : k < ms.length
  · rw [upperLevelsClear, List.all_eq_true] at h
    have h2 := h k (by rw [List.mem_range'_1]; omega)
    rw [List.all_eq_true] at h2
    by_cases hp : p < (levelAt ms k).block_map.length
    · have hmem : (levelAt ms k).block_map[p] ∈ (levelAt ms k).block_map :=
        List.getElem_mem hp
      have h3 := h2 _ hmem
      rw [beq_iff_eq] at h3
      rw [blockAt_eq, List.getD_eq_getElem _ _ hp]
      exact h3
    · exact blockAt_of_index_ge _ _ _ (Nat.le_of_not_lt hp)
  · exact blockAt_of_level_ge _ _ _ (Nat.le_of_not_lt hkLen)

/-- `fold_range_maps` keeps the skeleton. -/
theorem fold_range_maps_skel (chipSize : Nat) (ms : List RangeMap) :
    SkelEq ms (fold_range_maps chipSize ms) := by
  rw [fold_range_maps, pruneDown]
  exact skelEq_trans (foldUp_skel chipSize ms) (pruneFrom_skel chipSize _ _)

/-- Asymmetric core of C5: after `fold_range_maps`, a marked block of a
lower level cannot share a byte address with a marked block of a strictly
higher level. -/
theorem fold_range_maps_sep (chipSize : Nat) (ms : List RangeMap)
    (hwf : wfMaps chipSize ms = true) (hclear : upperLevelsClear ms = true) :
    ∀ i k q p a, i < k → k < ms.length →
      markedBlock (fold_range_maps chipSize ms) i q = true →
      markedBlock (fold_range_maps chipSize ms) k p = true →
      bsAt ms i * q ≤ a → a < bsAt ms i * (q + 1) →
      bsAt ms k * p ≤ a → a < bsAt ms k * (p + 1) → False := by
  intro i k q p a hik hkLen hmq hmp hq1 hq2 hp1 hp2
  have hspec := wfMaps_spec hwf
  have hdvd : ∀ t, t + 1 < ms.length → bsAt ms t ∣ bsAt ms (t + 1) :=
    fun t ht => ((hspec t (by omega)).2.2 ht).2
  have hpos : ∀ t, t < ms.length → 0 < bsAt ms t := fun t ht => (hspec t ht).1
  have hlen : ∀ t, t < ms.length →
      (levelAt ms t).block_map.length = chipSize / bsAt ms t :=
    fun t ht => (hspec t ht).2.1
  have hskelU : SkelEq ms (foldUp chipSize ms) := foldUp_skel chipSize ms
  have hPr : fold_range_maps chipSize ms =
      pruneFrom chipSize ((foldUp chipSize ms).length - 1)
        (foldUp chipSize ms) := by
    rw [fold_range_maps, pruneDown]
  have hci : ∀ k2 p2, 1 ≤ k2 →
      (blockAt (fold_range_maps chipSize ms) k2 p2).need_change = true →
      (blockAt (fold_range_maps chipSize ms) k2 p2).need_erase = true := by
    rw [hPr]
    exact changeImp_of_onlyClears (pruneFrom_onlyClears chipSize _ _)
      (foldUp_changeImp chipSize ms
        (fun k2 p2 hk2 => upperLevelsClear_spec hclear k2 p2 hk2))
  have hsep := pruneFrom_sep chipSize ms hdvd hpos hlen
    ((foldUp chipSize ms).length - 1) (foldUp chipSize ms) hskelU
    (by intro k2 p2 l2 j2 hk2 hk2len _ _ _ _; omega)
  have herase : (blockAt (fold_range_maps chipSize ms) k p).need_erase
      = true := by
    rw [markedBlock, Bool.or_eq_true] at hmp
    rcases hmp with h | h
    · exact h
    · exact hci k p (by omega) h
  have hdvdik : bsAt ms i ∣ bsAt ms k :=
    bsAt_dvd_chain ms hdvd i k (by omega) hkLen
  obtain ⟨hn1, hn2⟩ := nested_of_common_point hdvdik hq1 hq2 hp1 hp2
  have hkP : k < (pruneFrom chipSize ((foldUp chipSize ms).length - 1)
      (foldUp chipSize ms)).length := by
    rw [← hPr, (fold_range_maps_skel chipSize ms).1]
    exact hkLen
  have hclr : blockAt (fold_range_maps chipSize ms) i q = BMap.clear := by
    rw [hPr]
    refine hsep k p i q (by omega) hkP ?_ hik hn1 hn2
    rw [← hPr]
    exact herase
  rw [markedBlock, hclr] at hmq
  simp [BMap.clear] at hmq

/-- C5: after the downward prune no byte address is covered by marked blocks
of two different levels (whose block sizes are strictly ascending, hence
different), and consequently no two processing units emitted at different
levels overlap. -/
theorem c5_prune_no_overlap (chipSize : Nat) (ms : List RangeMap)
    (hwf : wfMaps chipSize ms = true) (hclear : upperLevelsClear ms = true) :
    (∀ i k q p a, i < ms.length → k < ms.length → i ≠ k →
      markedBlock (fold_range_maps chipSize ms) i q = true →
      markedBlock (fold_range_maps chipSize ms) k p = true →
      bsAt ms i * q ≤ a → a < bsAt ms i * (q + 1) →
      bsAt ms k * p ≤ a → a < bsAt ms k * (p + 1) → False) ∧
    (∀ i k e1 r1 e2 r2, i < ms.length → k < ms.length → i ≠ k →
      ∀ pu1 ∈ emitLevel chipSize (levelAt (fold_range_maps chipSize ms) i) e1 r1,
      ∀ pu2 ∈ emitLevel chipSize (levelAt (fold_range_maps chipSize ms) k) e2 r2,
      ∀ a, pu1.offset ≤ a → a < pu1.offset + pu1.num_blocks * pu1.block_size →
        pu2.offset ≤ a → a < pu2.offset + pu2.num_blocks * pu2.block_size →
        False) := by
  have hspec := wfMaps_spec hwf
  have hskelP := fold_range_maps_skel chipSize ms
  have hmain : ∀ i k q p a, i < ms.length → k < ms.length → i ≠ k →
      markedBlock (fold_range_maps chipSize ms) i q = true →
      markedBlock (fold_range_maps chipSize ms) k p = true →
      bsAt ms i * q ≤ a → a < bsAt ms i * (q + 1) →
      bsAt ms k * p ≤ a → a < bsAt ms k * (p + 1) → False := by
    intro i k q p a hi hk hne hmq hmp hq1 hq2 hp1 hp2
    rcases Nat.lt_or_ge i k with h | h
    · exact fold_range_maps_sep chipSize ms hwf hclear i k q p a h hk
        hmq hmp hq1 hq2 hp1 hp2
    · have h2 : k < i := by omega
      exact fold_range_maps_sep chipSize ms hwf hclear k i p q a h2 hi
        hmp hmq hp1 hp2 hq1 hq2
  refine ⟨hmain, ?_⟩
  intro i k e1 r1 e2 r2 hi hk hne pu1 hpu1 pu2 hpu2 a ha1 ha2 ha3 ha4
  have hbsi : (levelAt (fold_range_maps chipSize ms) i).block_size =
      bsAt ms i := (hskelP.2 i).1
  have hbsk : (levelAt (fold_range_maps chipSize ms) k).block_size =
      bsAt ms k := (hskelP.2 k).1
  have hposi : 0 < bsAt ms i := (hspec i hi).1
  have hposk : 0 < bsAt ms k := (hspec k hk).1
  obtain ⟨hsz1, hcov1⟩ := emitLevel_sound chipSize
    (levelAt (fold_range_maps chipSize ms) i) e1 r1
    (by rw [hbsi]; exact hposi) pu1 hpu1
  obtain ⟨hsz2, hcov2⟩ := emitLevel_sound chipSize
    (levelAt (fold_range_maps chipSize ms) k) e2 r2
    (by rw [hbsk]; exact hposk) pu2 hpu2
  have hm1 : markedBlock (fold_range_maps chipSize ms) i
      (a / bsAt ms i) = true := by
    have := hcov1 a ha1 ha2
    rw [hbsi] at this
    exact this
  have hm2 : markedBlock (fold_range_maps chipSize ms) k
      (a / bsAt ms k) = true := by
    have := hcov2 a ha3 ha4
    rw [hbsk] at this
    exact this
  have hdi := Nat.div_add_mod a (bsAt ms i)
  have hdj := Nat.div_add_mod a (bsAt ms k)
  have hmi := Nat.mod_lt a hposi
  have hmk2 := Nat.mod_lt a hposk
  have hei : bsAt ms i * (a / bsAt ms i + 1) =
      bsAt ms i * (a / bsAt ms i) + bsAt ms i := by ring
  have hek : bsAt ms k * (a / bsAt ms k + 1) =
      bsAt ms k * (a / bsAt ms k) + bsAt ms k := by ring
  exact hmain i k (a / bsAt ms i) (a / bsAt ms k) a hi hk hne hm1 hm2
    (by omega) (by omega) (by omega) (by omega)

/-- Witness for C5: a two-level map array over a 16-byte chip with marks on
the finest level. -/
theorem c5_witness :
    (wfMaps 16 c5Maps = true ∧ upperLevelsClear c5Maps = true) ∧
    ((∀ i k q p a, i < c5Maps.length → k < c5Maps.length → i ≠ k →
      markedBlock (fold_range_maps 16 c5Maps) i q = true →
      markedBlock (fold_range_maps 16 c5Maps) k p = true →
      bsAt c5Maps i * q ≤ a → a < bsAt c5Maps i * (q + 1) →
      bsAt c5Maps k * p ≤ a → a < bsAt c5Maps k * (p + 1) → False) ∧
    (∀ i k e1 r1 e2 r2, i < c5Maps.length → k < c5Maps.length → i ≠ k →
      ∀ pu1 ∈ emitLevel 16 (levelAt (fold_range_maps 16 c5Maps) i) e1 r1,
      ∀ pu2 ∈ emitLevel 16 (levelAt (fold_range_maps 16 c5Maps) k) e2 r2,
      ∀ a, pu1.offset ≤ a → a < pu1.offset + pu1.num_blocks * pu1.block_size →
        pu2.offset ≤ a → a < pu2.offset + pu2.num_blocks * pu2.block_size →
        False)) :=
  ⟨⟨by decide, by decide⟩, c5_prune_no_overlap 16 c5Maps (by decide) (by decide)⟩

end Flashrom
